import Mathlib

/-!
Verification of the kriging interpolation core (`src/utils/kriging.ts`).

The source's JavaScript numbers are modelled as exact real numbers (`ℝ`);
`Math.sqrt` is `Real.sqrt`, `Math.floor`/`Math.ceil` are `Int.floor`/`Int.ceil`.
Loops that mutate accumulators are modelled as folds or structural recursion,
preserving the source's iteration order and early returns.
-/

noncomputable section

open Classical

/-- The `Sample` record from the source: a located observation. -/
structure Sample where
  x : ℝ
  y : ℝ
  z : ℝ
deriving Inhabited

/-- The `VariogramParams` record from the source. -/
structure VariogramParams where
  nugget : ℝ
  sill : ℝ
  range : ℝ
deriving Inhabited

/-- Validity of `VariogramParams` as stated by the spec's data model:
`nugget ≥ 0`, `sill ≥ nugget`, `range > 0`. -/
def VariogramParams.Valid (p : VariogramParams) : Prop :=
  0 ≤ p.nugget ∧ p.nugget ≤ p.sill ∧ 0 < p.range

/-- Source function `sphericalVariogram(distance, params)`:
returns 0 at zero distance, the sill at/beyond the range, and the spherical
polynomial in between. -/
def sphericalVariogram (distance : ℝ) (params : VariogramParams) : ℝ :=
  if distance = 0 then 0
  else if params.range ≤ distance then params.sill
  else
    params.nugget +
      (params.sill - params.nugget) *
        (1.5 * (distance / params.range) - 0.5 * (distance / params.range) ^ 3)

/-- An entry of the empirical semivariogram: the source's
`{ distance, semivariance }` record. -/
structure EmpiricalPoint where
  distance : ℝ
  semivariance : ℝ
deriving Inhabited

/-- One unordered pair's contribution in `calculateSemivariogram`:
Euclidean distance and `0.5 * (z_i - z_j)^2`. -/
def pairContribution (a b : Sample) : EmpiricalPoint :=
  { distance := Real.sqrt ((a.x - b.x) * (a.x - b.x) + (a.y - b.y) * (a.y - b.y)),
    semivariance := 0.5 * (a.z - b.z) ^ 2 }

/-- The double loop `for i; for j = i+1` of `calculateSemivariogram`, in
source order: each sample is paired with every later sample. -/
def allPairs : List Sample → List EmpiricalPoint
  | [] => []
  | s :: rest => rest.map (pairContribution s) ++ allPairs rest

/-- A lag bin accumulator: the source's `{ distance, count, sum }` record.
`count` is a loop counter, hence a natural number. -/
structure Bin where
  distance : ℝ
  count : ℕ
  sum : ℝ
deriving Inhabited

/-- The bin-construction loop: one bin per index `0 ≤ i ≤ ceil(maxDistance/binSize)`,
labeled with midpoint `(i + 0.5) * binSize`. -/
def initialBins (binSize maxDistance : ℝ) : List Bin :=
  (List.range ((⌈maxDistance / binSize⌉).toNat + 1)).map
    (fun (i : ℕ) => { distance := ((i : ℝ) + 0.5) * binSize, count := 0, sum := 0 })

/-- Increment the `count` and `sum` of the bin at a given index
(the source's `bins[binIndex].count++; bins[binIndex].sum += …`). -/
def updateBin : List Bin → ℕ → ℝ → List Bin
  | [], _, _ => []
  | b :: bs, 0, sv => { b with count := b.count + 1, sum := b.sum + sv } :: bs
  | b :: bs, k + 1, sv => b :: updateBin bs k sv

/-- The pair-assignment loop: each pair goes to bin `⌊distance / binSize⌋` when
that index addresses an existing bin. Pair distances are square roots, hence
nonnegative, so for a positive bin size the floor is never negative; a negative
index would crash the source before reaching the guard, so definedness of the
update is conditioned on `0 ≤ ⌊distance / binSize⌋` as well. -/
def assignPairs (binSize : ℝ) (bins : List Bin) (pairs : List EmpiricalPoint) : List Bin :=
  pairs.foldl
    (fun bs p =>
      if 0 ≤ ⌊p.distance / binSize⌋ ∧ (⌊p.distance / binSize⌋).toNat < bs.length then
        updateBin bs (⌊p.distance / binSize⌋).toNat p.semivariance
      else bs)
    bins

/-- Source function `calculateSemivariogram(samples, binSize)`: all pairwise
contributions, `Math.max` of the distances (a fold over the nonempty list),
fixed-width bins, assignment by floored distance, then the populated bins
averaged, in bin order. -/
def calculateSemivariogram (samples : List Sample) (binSize : ℝ) : List EmpiricalPoint :=
  if samples.length < 2 then []
  else
    match allPairs samples with
    | [] => []
    | p :: ps =>
      let maxDistance := ps.foldl (fun m q => max m q.distance) p.distance
      let bins := assignPairs binSize (initialBins binSize maxDistance) (p :: ps)
      (bins.filter (fun b => 0 < b.count)).map
        (fun b => { distance := b.distance, semivariance := b.sum / (b.count : ℝ) })

/-- Source function `fitVariogramParams(empirical)`: fixed default on empty
input, otherwise `0.1·min`, `1.1·max` of the semivariances and half the
maximum distance (`Math.min`/`Math.max` of a nonempty spread = a fold). -/
def fitVariogramParams (empirical : List EmpiricalPoint) : VariogramParams :=
  match empirical with
  | [] => { nugget := 0, sill := 1, range := 10 }
  | e :: es =>
    { nugget := (es.foldl (fun m q => min m q.semivariance) e.semivariance) * 0.1,
      sill := (es.foldl (fun m q => max m q.semivariance) e.semivariance) * 1.1,
      range := (es.foldl (fun m q => max m q.distance) e.distance) * 0.5 }

/-- Positional labels of a bin list: bin `i` is labeled `(i + 0.5) * binSize`. -/
def BinLabels (binSize : ℝ) (bins : List Bin) : Prop :=
  ∀ i, ∀ h : i < bins.length, (bins.get ⟨i, h⟩).distance = ((i : ℝ) + 0.5) * binSize

/-- A bin can only be populated by some pair whose floored lag index labels it. -/
def GoodBin (w : ℝ) (pairsAll : List EmpiricalPoint) (b : Bin) : Prop :=
  ∃ q ∈ pairsAll, 0 ≤ ⌊q.distance / w⌋ ∧
    (((⌊q.distance / w⌋).toNat : ℝ) + 0.5) * w = b.distance

/-- Accumulated `sum` of `calculateStdDev`'s cell loop. -/
def surfaceSum (surface : List (List ℝ)) : ℝ :=
  surface.foldl (fun acc row => row.foldl (fun a v => a + v) acc) 0

/-- Accumulated `sumSquared` of `calculateStdDev`'s cell loop. -/
def surfaceSumSq (surface : List (List ℝ)) : ℝ :=
  surface.foldl (fun acc row => row.foldl (fun a v => a + v * v) acc) 0

/-- Accumulated `count` of `calculateStdDev`'s cell loop (one increment per
cell, so each row contributes its length). -/
def surfaceCount (surface : List (List ℝ)) : ℕ :=
  surface.foldl (fun acc row => acc + row.length) 0

/-- Source function `calculateStdDev(surface)`. The three accumulators evolve
independently, so the single pass is modelled as one fold per accumulator.
With `count = 0` the source computes `0/0 = NaN`, which propagates through
`Math.max` and `Math.sqrt` to a `NaN` return; on real inputs that division is
the only `NaN` source, so the result is modelled as `Option ℝ` with `none`
standing for the `NaN` outcome. -/
def calculateStdDev (surface : List (List ℝ)) : Option ℝ :=
  if surfaceCount surface = 0 then none
  else
    some (Real.sqrt (max (surfaceSumSq surface / (surfaceCount surface : ℝ) -
      (surfaceSum surface / (surfaceCount surface : ℝ)) *
      (surfaceSum surface / (surfaceCount surface : ℝ))) 0))

/-- Euclidean distance from a query point to a sample
(the `dx`/`dy`/`Math.sqrt` computation in the source). -/
def pointDistance (x y : ℝ) (s : Sample) : ℝ :=
  Real.sqrt ((x - s.x) * (x - s.x) + (y - s.y) * (y - s.y))

/-- Indexing `samples[i]` (always used in range by the source). -/
def sampleGet (samples : List Sample) (i : ℕ) : Sample :=
  samples.getD i default

/-- The augmented kriging system matrix built by `krigePoint`:
inter-sample semivariances with a zero diagonal, bordered by the
Lagrange-multiplier row/column of ones with a zero corner. Entries outside
`(n+1) × (n+1)` are never read by the solver. -/
def krigingMatrix (samples : List Sample) (params : VariogramParams) : ℕ → ℕ → ℝ :=
  fun i j =>
    if i < samples.length ∧ j < samples.length then
      if i = j then 0
      else
        sphericalVariogram
          (pointDistance (sampleGet samples i).x (sampleGet samples i).y
            (sampleGet samples j)) params
    else if i < samples.length ∧ j = samples.length then 1
    else if i = samples.length ∧ j < samples.length then 1
    else 0

/-- The right-hand side built by `krigePoint`: semivariances from the query to
each sample, then the constraint entry `1`. -/
def krigingRhs (x y : ℝ) (samples : List Sample) (params : VariogramParams) : ℕ → ℝ :=
  fun i =>
    if i < samples.length then
      sphericalVariogram (pointDistance x y (sampleGet samples i)) params
    else if i = samples.length then 1
    else 0

/-- The pivot scan of `gaussianElimination`: the row in `i..N-1` whose column-`i`
entry has the largest magnitude (first occurrence wins ties). -/
def pivotRow (m : ℕ → ℕ → ℝ) (N i : ℕ) : ℕ :=
  (List.range' (i + 1) (N - (i + 1))).foldl
    (fun best k => if |m k i| > |m best i| then k else best) i

/-- Index transposition used to model the row swap. -/
def swapIdx (i j k : ℕ) : ℕ :=
  if k = i then j else if k = j then i else k

/-- The elimination of column `i` below the pivot row: row `k > i` gets
`factor = m k i / m i i` times row `i` subtracted (columns `i..N-1`), and the
same update is applied to the right-hand side. The factor is read before the
row is modified, and the pivot row itself is unchanged, so the source's
sequential updates equal this simultaneous form. -/
def elimStep (N i : ℕ) (m : ℕ → ℕ → ℝ) (r : ℕ → ℝ) : (ℕ → ℕ → ℝ) × (ℕ → ℝ) :=
  (fun k j =>
      if i < k ∧ k < N ∧ i ≤ j ∧ j < N then m k j - m k i / m i i * m i j else m k j,
   fun k => if i < k ∧ k < N then r k - m k i / m i i * r i else r k)

/-- One column step of the forward phase: pivot scan, row swap, singularity
check against the fixed `1e-10` tolerance, then elimination. -/
def feStep (N i : ℕ) (m : ℕ → ℕ → ℝ) (r : ℕ → ℝ) : Option ((ℕ → ℕ → ℝ) × (ℕ → ℝ)) :=
  let p := pivotRow m N i
  let m1 := fun k j => m (swapIdx i p k) j
  let r1 := fun k => r (swapIdx i p k)
  if |m1 i i| < 1e-10 then none
  else some (elimStep N i m1 r1)

/-- The forward-elimination loop over columns `i = N - fuel, …, N - 1`. -/
def forwardElim (N : ℕ) : ℕ → (ℕ → ℕ → ℝ) → (ℕ → ℝ) → Option ((ℕ → ℕ → ℝ) × (ℕ → ℝ))
  | 0, m, r => some (m, r)
  | fuel + 1, m, r =>
    match feStep N (N - (fuel + 1)) m r with
    | none => none
    | some (m', r') => forwardElim N fuel m' r'

/-- Back substitution: after `k` steps the entries `N - k, …, N - 1` of the
solution are computed, bottom row first. -/
def backSub (N : ℕ) (m : ℕ → ℕ → ℝ) (r : ℕ → ℝ) : ℕ → ℕ → ℝ
  | 0 => fun _ => 0
  | k + 1 => fun t =>
    if t = N - (k + 1) then
      (r (N - (k + 1)) -
        (Finset.Ico (N - (k + 1) + 1) N).sum
          (fun j => m (N - (k + 1)) j * backSub N m r k j)) /
        m (N - (k + 1)) (N - (k + 1))
    else backSub N m r k t

/-- Source function `gaussianElimination(A, b)`, for an `N × N` system given
as index functions: forward elimination with partial pivoting (aborting with
`null = none` when a pivot magnitude is below `1e-10`), then back
substitution. -/
def gaussianElimination (N : ℕ) (A : ℕ → ℕ → ℝ) (b : ℕ → ℝ) : Option (ℕ → ℝ) :=
  match forwardElim N N A b with
  | none => none
  | some (m, r) => some (backSub N m r N)

/-- The loop body of `inverseDistanceWeighting`, carrying the `totalWeight`
and `weightedSum` accumulators; a sample within `0.001` of the query returns
its value immediately. -/
def idwLoop (x y : ℝ) : List Sample → ℝ → ℝ → ℝ
  | [], totalWeight, weightedSum =>
    if totalWeight > 0 then weightedSum / totalWeight else 0
  | s :: rest, totalWeight, weightedSum =>
    if pointDistance x y s < 0.001 then s.z
    else
      idwLoop x y rest
        (totalWeight + 1 / (pointDistance x y s * pointDistance x y s))
        (weightedSum + 1 / (pointDistance x y s * pointDistance x y s) * s.z)

/-- Source function `inverseDistanceWeighting(x, y, samples)`. -/
def inverseDistanceWeighting (x y : ℝ) (samples : List Sample) : ℝ :=
  idwLoop x y samples 0 0

/-- Source function `krigePoint(x, y, samples, params)`: empty guard, exact
location match, then the `(n+1) × (n+1)` ordinary-kriging solve with the IDW
fallback on a singular system; the weights (ignoring the Lagrange entry) are
dotted with the sample values. -/
def krigePoint (x y : ℝ) (samples : List Sample) (params : VariogramParams) : ℝ :=
  if samples.length = 0 then 0
  else
    match samples.find? (fun s => s.x = x ∧ s.y = y) with
    | some s => s.z
    | none =>
      match gaussianElimination (samples.length + 1) (krigingMatrix samples params)
          (krigingRhs x y samples params) with
      | none => inverseDistanceWeighting x y samples
      | some w =>
        (List.range samples.length).foldl
          (fun acc i => acc + w i * (sampleGet samples i).z) 0

/-- Predicate: `x` solves the `N × N` linear system `(m, r)`. -/
def SolvesSystem (N : ℕ) (m : ℕ → ℕ → ℝ) (r : ℕ → ℝ) (x : ℕ → ℝ) : Prop :=
  ∀ i, i < N → ∑ j in Finset.range N, m i j * x j = r i

/-- Columns `< i` are already eliminated below the diagonal. -/
def LowerZeros (N i : ℕ) (m : ℕ → ℕ → ℝ) : Prop :=
  ∀ k j, k < N → j < k → j < i → m k j = 0

/-- Extension of an index permutation of `0..n-1` fixing every other index
(in particular the Lagrange index `n`). -/
def extendPerm (n : ℕ) (σ : ℕ → ℕ) : ℕ → ℕ :=
  fun k => if k < n then σ k else k

theorem sphericalVariogram_zero (p : VariogramParams) : sphericalVariogram 0 p = 0 := by
  simp [sphericalVariogram]

theorem sphericalVariogram_of_range_le (d : ℝ) (p : VariogramParams)
    (hd : d ≠ 0) (h : p.range ≤ d) : sphericalVariogram d p = p.sill := by
  simp [sphericalVariogram, hd, h]

theorem sphericalVariogram_of_lt_range (d : ℝ) (p : VariogramParams)
    (hd : d ≠ 0) (h : d < p.range) :
    sphericalVariogram d p =
      p.nugget + (p.sill - p.nugget) *
        (1.5 * (d / p.range) - 0.5 * (d / p.range) ^ 3) := by
  simp [sphericalVariogram, hd, not_le.mpr h]

/-- The interior spherical polynomial value is nonnegative for valid params. -/
theorem sphericalVariogram_interior_nonneg (d : ℝ) (p : VariogramParams)
    (hn : 0 ≤ p.nugget) (hns : p.nugget ≤ p.sill) (hr : 0 < p.range)
    (hd0 : 0 < d) (hdr : d < p.range) : 0 ≤ sphericalVariogram d p := by
  rw [sphericalVariogram_of_lt_range d p (ne_of_gt hd0) hdr]
  set h := d / p.range with hh
  have h0 : 0 < h := div_pos hd0 hr
  have h1 : h < 1 := (div_lt_one hr).mpr hdr
  have hc : 0 ≤ p.sill - p.nugget := by linarith
  have hpoly : 0 ≤ 1.5 * h - 0.5 * h ^ 3 := by nlinarith [sq_nonneg h, h0.le, h1.le]
  nlinarith [mul_nonneg hc hpoly]

/-- The interior spherical polynomial value is at most the sill for valid params. -/
theorem sphericalVariogram_interior_le_sill (d : ℝ) (p : VariogramParams)
    (hns : p.nugget ≤ p.sill) (hr : 0 < p.range)
    (hd0 : 0 < d) (hdr : d < p.range) : sphericalVariogram d p ≤ p.sill := by
  rw [sphericalVariogram_of_lt_range d p (ne_of_gt hd0) hdr]
  set h := d / p.range with hh
  have h0 : 0 < h := div_pos hd0 hr
  have h1 : h < 1 := (div_lt_one hr).mpr hdr
  have hc : 0 ≤ p.sill - p.nugget := by linarith
  have hpoly : 1.5 * h - 0.5 * h ^ 3 ≤ 1 := by nlinarith [sq_nonneg (h - 1), h0.le, h1.le]
  nlinarith [mul_le_mul_of_nonneg_left hpoly hc]

/-- C3: the spherical variogram matches the spec's three-case formula for any
valid params and any nonnegative distance. -/
theorem C3_sphericalVariogram_piecewise (d : ℝ) (p : VariogramParams)
    (hv : p.Valid) (hd : 0 ≤ d) :
    (d = 0 → sphericalVariogram d p = 0) ∧
    (0 < d → d < p.range →
      sphericalVariogram d p =
        p.nugget + (p.sill - p.nugget) *
          (1.5 * (d / p.range) - 0.5 * (d / p.range) ^ 3)) ∧
    (p.range ≤ d → sphericalVariogram d p = p.sill) := by
  obtain ⟨hn, hns, hr⟩ := hv
  refine ⟨?_, ?_, ?_⟩
  · rintro rfl; exact sphericalVariogram_zero p
  · intro h0 hlt; exact sphericalVariogram_of_lt_range d p (ne_of_gt h0) hlt
  · intro hge
    have hd0 : d ≠ 0 := ne_of_gt (lt_of_lt_of_le hr hge)
    exact sphericalVariogram_of_range_le d p hd0 hge

/-- C3 witness. -/
theorem C3_sphericalVariogram_piecewise_witness :
    (VariogramParams.mk 1 5 10).Valid ∧ (0:ℝ) ≤ 5 ∧
    sphericalVariogram 5 (VariogramParams.mk 1 5 10) =
      1 + (5 - 1) * (1.5 * ((5:ℝ) / 10) - 0.5 * ((5:ℝ) / 10) ^ 3) := by
  have hv : (VariogramParams.mk 1 5 10).Valid := by
    refine ⟨by norm_num, by norm_num, by norm_num⟩
  refine ⟨hv, by norm_num, ?_⟩
  have h := (C3_sphericalVariogram_piecewise 5 (VariogramParams.mk 1 5 10) hv (by norm_num)).2.1
  simpa using h (by norm_num) (by norm_num)

/-- C4 counterexample: with `range = -1 ≤ 0` and `distance = 1`, the source's
`sphericalVariogram` silently returns the sill (here `7`) — it signals no
invalid-argument condition. -/
theorem C4_counterexample_silent_value :
    sphericalVariogram 1 (VariogramParams.mk 0 7 (-1)) = 7 := by
  simp [sphericalVariogram]

/-- C4 (amended): with `range ≤ 0` the source never divides by zero, but it
does not fail fast either: it silently returns the sill for any positive
distance (and `0` at distance `0`), because the `distance >= range` plateau
branch fires before the division is reached. -/
theorem C4_range_nonpos_silent (d : ℝ) (p : VariogramParams) (hr : p.range ≤ 0) :
    (0 < d → sphericalVariogram d p = p.sill) ∧
    (d = 0 → sphericalVariogram d p = 0) := by
  constructor
  · intro hd
    exact sphericalVariogram_of_range_le d p (ne_of_gt hd) (le_trans hr hd.le)
  · rintro rfl; exact sphericalVariogram_zero p

/-- C4 witness. -/
theorem C4_range_nonpos_silent_witness :
    sphericalVariogram 2 (VariogramParams.mk 0 7 (-1)) = 7 := by
  have h := (C4_range_nonpos_silent 2 (VariogramParams.mk 0 7 (-1)) (by norm_num)).1
  simpa using h (by norm_num)

/-- C8: on `[0, range]`, the spherical variogram is monotonically
non-decreasing in distance, for any valid params. -/
theorem C8_sphericalVariogram_monotone (p : VariogramParams) (d₁ d₂ : ℝ)
    (hv : p.Valid) (h0 : 0 ≤ d₁) (h12 : d₁ ≤ d₂) (h2r : d₂ ≤ p.range) :
    sphericalVariogram d₁ p ≤ sphericalVariogram d₂ p := by
  obtain ⟨hn, hns, hr⟩ := hv
  rcases eq_or_lt_of_le h0 with h10 | h1pos
  · -- d₁ = 0 : left side is 0, right side is nonnegative
    rw [← h10, sphericalVariogram_zero]
    rcases eq_or_lt_of_le (h10.trans_le h12) with h20 | h2pos
    · rw [← h20, sphericalVariogram_zero]
    · rcases eq_or_lt_of_le h2r with h2eq | h2lt
      · rw [sphericalVariogram_of_range_le d₂ p (ne_of_gt h2pos) (le_of_eq h2eq.symm)]
        linarith
      · exact sphericalVariogram_interior_nonneg d₂ p hn hns hr h2pos h2lt
  · -- 0 < d₁ ≤ d₂
    have h2pos : 0 < d₂ := lt_of_lt_of_le h1pos h12
    rcases eq_or_lt_of_le h2r with h2eq | h2lt
    · -- d₂ = range : right side is the sill, left side is at most the sill
      rw [sphericalVariogram_of_range_le d₂ p (ne_of_gt h2pos) (le_of_eq h2eq.symm)]
      rcases eq_or_lt_of_le (h12.trans h2r) with h1eq | h1lt
      · rw [sphericalVariogram_of_range_le d₁ p (ne_of_gt h1pos) (le_of_eq h1eq.symm)]
      · exact sphericalVariogram_interior_le_sill d₁ p hns hr h1pos h1lt
    · -- both interior: compare the spherical polynomial at h₁ ≤ h₂ in (0,1)
      have h1lt : d₁ < p.range := lt_of_le_of_lt h12 h2lt
      rw [sphericalVariogram_of_lt_range d₁ p (ne_of_gt h1pos) h1lt,
        sphericalVariogram_of_lt_range d₂ p (ne_of_gt h2pos) h2lt]
      have hb1 : d₁ / p.range < 1 := (div_lt_one hr).mpr h1lt
      have hb2 : d₂ / p.range < 1 := (div_lt_one hr).mpr h2lt
      have ha1 : 0 < d₁ / p.range := div_pos h1pos hr
      have ha2 : 0 < d₂ / p.range := div_pos h2pos hr
      have hle : d₁ / p.range ≤ d₂ / p.range := by gcongr
      have hc : 0 ≤ p.sill - p.nugget := by linarith
      set a := d₁ / p.range
      set b := d₂ / p.range
      have hsq1 : a ^ 2 ≤ 1 := by nlinarith
      have hsq2 : b ^ 2 ≤ 1 := by nlinarith
      have hab : a * b ≤ 1 := by nlinarith
      have key : 0 ≤ (b - a) * (3 - (a ^ 2 + a * b + b ^ 2)) :=
        mul_nonneg (sub_nonneg.2 hle) (by linarith)
      have hpoly : 1.5 * a - 0.5 * a ^ 3 ≤ 1.5 * b - 0.5 * b ^ 3 := by
        nlinarith [key]
      nlinarith [mul_le_mul_of_nonneg_left hpoly hc]

/-- C8 witness. -/
theorem C8_sphericalVariogram_monotone_witness :
    sphericalVariogram 2 (VariogramParams.mk 1 5 10) ≤
      sphericalVariogram 7 (VariogramParams.mk 1 5 10) :=
  C8_sphericalVariogram_monotone (VariogramParams.mk 1 5 10) 2 7
    ⟨by norm_num, by norm_num, by norm_num⟩ (by norm_num) (by norm_num) (by norm_num)

theorem updateBin_length (bs : List Bin) (k : ℕ) (sv : ℝ) :
    (updateBin bs k sv).length = bs.length := by
  induction bs generalizing k with
  | nil => simp [updateBin]
  | cons b bs ih =>
    cases k with
    | zero => simp [updateBin]
    | succ k => simp [updateBin, ih]

theorem updateBin_map_distance (bs : List Bin) (k : ℕ) (sv : ℝ) :
    (updateBin bs k sv).map Bin.distance = bs.map Bin.distance := by
  induction bs generalizing k with
  | nil => simp [updateBin]
  | cons b bs ih =>
    cases k with
    | zero => simp [updateBin]
    | succ k => simp [updateBin, ih]

theorem mem_updateBin (bs : List Bin) (k : ℕ) (sv : ℝ) (b : Bin)
    (hb : b ∈ updateBin bs k sv) :
    b ∈ bs ∨ ∃ h : k < bs.length,
      b = { bs.get ⟨k, h⟩ with
              count := (bs.get ⟨k, h⟩).count + 1,
              sum := (bs.get ⟨k, h⟩).sum + sv } := by
  induction bs generalizing k with
  | nil => simp [updateBin] at hb
  | cons c bs ih =>
    cases k with
    | zero =>
      rw [updateBin] at hb
      rcases List.mem_cons.1 hb with h | h
      · exact Or.inr ⟨Nat.succ_pos _, by simpa using h⟩
      · exact Or.inl (List.mem_cons_of_mem _ h)
    | succ k =>
      rw [updateBin] at hb
      rcases List.mem_cons.1 hb with h | h
      · exact Or.inl (h ▸ List.mem_cons_self _ _)
      · rcases ih k h with h' | ⟨hk, hb'⟩
        · exact Or.inl (List.mem_cons_of_mem _ h')
        · exact Or.inr ⟨Nat.succ_lt_succ hk, by simpa using hb'⟩

theorem binLabels_of_map_eq {w : ℝ} {l l' : List Bin}
    (hm : l'.map Bin.distance = l.map Bin.distance) (hl : BinLabels w l) :
    BinLabels w l' := by
  intro i hi
  have hlen : l'.length = l.length := by
    have := congrArg List.length hm
    simpa using this
  have hi' : i < l.length := hlen ▸ hi
  have h1 : (l'.map Bin.distance).get ⟨i, by simpa using hi⟩ =
      (l.map Bin.distance).get ⟨i, by simpa using hi'⟩ := by
    apply List.get_of_eq hm
  have h1' : (l'.get ⟨i, hi⟩).distance = (l.get ⟨i, hi'⟩).distance := by simpa using h1
  have h2 : (l.get ⟨i, hi'⟩).distance = ((i : ℝ) + 0.5) * w := hl i hi'
  exact h1'.trans h2

theorem binLabels_initialBins (w m : ℝ) : BinLabels w (initialBins w m) := by
  intro i hi
  rw [List.get_eq_getElem]
  simp only [initialBins, List.getElem_map, List.getElem_range]

/-- Every pair produced by the double loop is a `pairContribution`. -/
theorem mem_allPairs {q : EmpiricalPoint} :
    ∀ {samples : List Sample}, q ∈ allPairs samples →
      ∃ a b, q = pairContribution a b := by
  intro samples
  induction samples with
  | nil => intro h; simp [allPairs] at h
  | cons s rest ih =>
    intro h
    rw [allPairs, List.mem_append] at h
    rcases h with h | h
    · rcases List.mem_map.1 h with ⟨b, _, rfl⟩
      exact ⟨s, b, rfl⟩
    · exact ih h

theorem pairContribution_semivariance_nonneg (a b : Sample) :
    0 ≤ (pairContribution a b).semivariance := by
  simp only [pairContribution]
  positivity

theorem pairContribution_distance_nonneg (a b : Sample) :
    0 ≤ (pairContribution a b).distance :=
  Real.sqrt_nonneg _

theorem assignPairs_cons (w : ℝ) (bins : List Bin) (q : EmpiricalPoint)
    (ps : List EmpiricalPoint) :
    assignPairs w bins (q :: ps) =
      assignPairs w
        (if 0 ≤ ⌊q.distance / w⌋ ∧ (⌊q.distance / w⌋).toNat < bins.length then
          updateBin bins (⌊q.distance / w⌋).toNat q.semivariance
        else bins) ps := rfl

theorem assignPairs_map_distance (w : ℝ) :
    ∀ (ps : List EmpiricalPoint) (bins : List Bin),
      (assignPairs w bins ps).map Bin.distance = bins.map Bin.distance := by
  intro ps
  induction ps with
  | nil => intro bins; rfl
  | cons q ps ih =>
    intro bins
    rw [assignPairs_cons, ih]
    by_cases hc : 0 ≤ ⌊q.distance / w⌋ ∧ (⌊q.distance / w⌋).toNat < bins.length
    · rw [if_pos hc, updateBin_map_distance]
    · rw [if_neg hc]

theorem assignPairs_sum_nonneg (w : ℝ) :
    ∀ (ps : List EmpiricalPoint) (bins : List Bin),
      (∀ q ∈ ps, 0 ≤ q.semivariance) → (∀ b ∈ bins, 0 ≤ b.sum) →
      ∀ b ∈ assignPairs w bins ps, 0 ≤ b.sum := by
  intro ps
  induction ps with
  | nil => intro bins _ hbins; exact hbins
  | cons q ps ih =>
    intro bins hq hbins
    rw [assignPairs_cons]
    apply ih _ (fun r hr => hq r (List.mem_cons_of_mem _ hr))
    by_cases hc : 0 ≤ ⌊q.distance / w⌋ ∧ (⌊q.distance / w⌋).toNat < bins.length
    · rw [if_pos hc]
      intro b hb
      rcases mem_updateBin _ _ _ _ hb with h | ⟨hk, rfl⟩
      · exact hbins b h
      · have h0 : 0 ≤ q.semivariance := hq q (List.mem_cons_self _ _)
        have h1 : 0 ≤ (bins.get ⟨(⌊q.distance / w⌋).toNat, hk⟩).sum :=
          hbins _ (List.get_mem _ _ _)
        simpa using add_nonneg h1 h0
    · rw [if_neg hc]; exact hbins

theorem assignPairs_goodBin (w : ℝ) (pairsAll : List EmpiricalPoint) :
    ∀ (ps : List EmpiricalPoint) (bins : List Bin),
      (∀ q ∈ ps, q ∈ pairsAll) → BinLabels w bins →
      (∀ b ∈ bins, 0 < b.count → GoodBin w pairsAll b) →
      ∀ b ∈ assignPairs w bins ps, 0 < b.count → GoodBin w pairsAll b := by
  intro ps
  induction ps with
  | nil => intro bins _ _ hbins; exact hbins
  | cons q ps ih =>
    intro bins hq hlab hbins
    rw [assignPairs_cons]
    by_cases hc : 0 ≤ ⌊q.distance / w⌋ ∧ (⌊q.distance / w⌋).toNat < bins.length
    · rw [if_pos hc]
      apply ih _ (fun r hr => hq r (List.mem_cons_of_mem _ hr))
      · exact binLabels_of_map_eq (updateBin_map_distance _ _ _) hlab
      · intro b hb hcount
        rcases mem_updateBin _ _ _ _ hb with h | ⟨hk, rfl⟩
        · exact hbins b h hcount
        · refine ⟨q, hq q (List.mem_cons_self _ _), hc.1, ?_⟩
          simpa using (hlab _ hk).symm
    · rw [if_neg hc]
      exact ih _ (fun r hr => hq r (List.mem_cons_of_mem _ hr)) hlab hbins

theorem initialBins_sum_zero (w m : ℝ) : ∀ b ∈ initialBins w m, b.sum = 0 := by
  intro b hb
  rcases List.mem_map.1 hb with ⟨i, _, rfl⟩
  rfl

theorem initialBins_count_zero (w m : ℝ) : ∀ b ∈ initialBins w m, b.count = 0 := by
  intro b hb
  rcases List.mem_map.1 hb with ⟨i, _, rfl⟩
  rfl

/-- Structure of the output of `calculateSemivariogram` on ≥ 2 samples:
every returned point was produced from a populated bin, comes from an actual
pair's floored lag index, and has nonnegative semivariance and a positive
midpoint label. -/
theorem calculateSemivariogram_mem (samples : List Sample) (w : ℝ) (hw : 0 < w) :
    ∀ pt ∈ calculateSemivariogram samples w,
      (∃ q ∈ allPairs samples, 0 ≤ ⌊q.distance / w⌋ ∧
        (((⌊q.distance / w⌋).toNat : ℝ) + 0.5) * w = pt.distance) ∧
      0 ≤ pt.semivariance ∧ 0 < pt.distance := by
  intro pt hpt
  rw [calculateSemivariogram] at hpt
  by_cases h2 : samples.length < 2
  · rw [if_pos h2] at hpt; simp at hpt
  · rw [if_neg h2] at hpt
    rcases hap : allPairs samples with _ | ⟨p, ps⟩
    · rw [hap] at hpt; simp at hpt
    · rw [hap] at hpt
      simp only at hpt
      obtain ⟨b, hbf, rfl⟩ := List.mem_map.1 hpt
      have hbmem : b ∈ assignPairs w
          (initialBins w (ps.foldl (fun m q => max m q.distance) p.distance)) (p :: ps) :=
        List.mem_of_mem_filter hbf
      have hbcount : 0 < b.count := by
        have := List.of_mem_filter hbf
        simpa using this
      have hgood : GoodBin w (p :: ps) b := by
        refine assignPairs_goodBin w (p :: ps) (p :: ps) _ (fun q hq => hq)
          (binLabels_initialBins w _) ?_ b hbmem hbcount
        intro b' hb' hc'
        rw [initialBins_count_zero w _ b' hb'] at hc'
        exact absurd hc' (lt_irrefl 0)
      obtain ⟨q, hqmem, hqfloor, hqlabel⟩ := hgood
      have hsum : 0 ≤ b.sum := by
        refine assignPairs_sum_nonneg w (p :: ps) _ ?_ ?_ b hbmem
        · intro q' hq'
          rw [← hap] at hq'
          obtain ⟨a', b', rfl⟩ := mem_allPairs hq'
          exact pairContribution_semivariance_nonneg a' b'
        · intro b' hb'
          rw [initialBins_sum_zero w _ b' hb']
      refine ⟨⟨q, hap ▸ hqmem, hqfloor, hqlabel⟩, ?_, ?_⟩
      · exact div_nonneg hsum (Nat.cast_nonneg _)
      · show 0 < b.distance
        rw [← hqlabel]
        have : (0 : ℝ) < ((⌊q.distance / w⌋).toNat : ℝ) + 0.5 := by positivity
        exact mul_pos this hw

/-- The output of `calculateSemivariogram` is strictly ascending in distance. -/
theorem calculateSemivariogram_sorted (samples : List Sample) (w : ℝ) (hw : 0 < w) :
    (calculateSemivariogram samples w).Pairwise
      (fun a b => a.distance < b.distance) := by
  rw [calculateSemivariogram]
  by_cases h2 : samples.length < 2
  · rw [if_pos h2]; exact List.Pairwise.nil
  · rw [if_neg h2]
    rcases hap : allPairs samples with _ | ⟨p, ps⟩
    · exact List.Pairwise.nil
    · simp only
      set maxD := ps.foldl (fun m q => max m q.distance) p.distance with hmaxD
      set bins := assignPairs w (initialBins w maxD) (p :: ps) with hbins
      have hdists : (bins.map Bin.distance).Pairwise (· < ·) := by
        rw [hbins, assignPairs_map_distance]
        have : (initialBins w maxD).map Bin.distance =
            (List.range ((⌈maxD / w⌉).toNat + 1)).map (fun (i : ℕ) => ((i : ℝ) + 0.5) * w) := by
          simp [initialBins, List.map_map]
        rw [this]
        refine List.pairwise_map.2 ?_
        refine List.Pairwise.imp ?_ (List.pairwise_lt_range _)
        intro i j hij
        have : ((i : ℝ) + 0.5) < ((j : ℝ) + 0.5) := by
          have : (i : ℝ) < (j : ℝ) := by exact_mod_cast hij
          linarith
        exact mul_lt_mul_of_pos_right this hw
      have hbp : bins.Pairwise (fun a b => a.distance < b.distance) :=
        List.pairwise_map.1 hdists
      have hfil : (bins.filter (fun b => 0 < b.count)).Pairwise
          (fun a b => a.distance < b.distance) :=
        List.Pairwise.sublist (List.filter_sublist _) hbp
      exact List.pairwise_map.2 hfil

/-- C6: with fewer than 2 samples the estimator returns the empty sequence;
with a positive bin width, every returned bin is labeled by the floored lag
index of at least one actual sample pair (no phantom empty bins), and the
bins are strictly ascending in distance. -/
theorem C6_semivariogram_shape (samples : List Sample) (w : ℝ) :
    (samples.length < 2 → calculateSemivariogram samples w = []) ∧
    (0 < w →
      (∀ pt ∈ calculateSemivariogram samples w,
        ∃ q ∈ allPairs samples, 0 ≤ ⌊q.distance / w⌋ ∧
          (((⌊q.distance / w⌋).toNat : ℝ) + 0.5) * w = pt.distance) ∧
      (calculateSemivariogram samples w).Pairwise
        (fun a b => a.distance < b.distance)) := by
  constructor
  · intro h2
    rw [calculateSemivariogram, if_pos h2]
  · intro hw
    exact ⟨fun pt hpt => (calculateSemivariogram_mem samples w hw pt hpt).1,
      calculateSemivariogram_sorted samples w hw⟩

/-- C6 witness. -/
theorem C6_semivariogram_shape_witness :
    calculateSemivariogram [⟨0, 0, 5⟩] 5 = [] ∧
    (calculateSemivariogram [⟨0, 0, 5⟩, ⟨3, 0, 8⟩] 3).Pairwise
      (fun a b => a.distance < b.distance) :=
  ⟨(C6_semivariogram_shape [⟨0, 0, 5⟩] 5).1 (by simp),
   ((C6_semivariogram_shape [⟨0, 0, 5⟩, ⟨3, 0, 8⟩] 3).2 (by norm_num)).2⟩

theorem foldl_min_proj_le {α : Type} (f : α → ℝ) :
    ∀ (l : List α) (a : ℝ), l.foldl (fun m q => min m (f q)) a ≤ a := by
  intro l
  induction l with
  | nil => intro a; exact le_refl a
  | cons x l ih => intro a; exact (ih (min a (f x))).trans (min_le_left _ _)

theorem foldl_min_proj_nonneg {α : Type} (f : α → ℝ) :
    ∀ (l : List α) (a : ℝ), 0 ≤ a → (∀ x ∈ l, 0 ≤ f x) →
      0 ≤ l.foldl (fun m q => min m (f q)) a := by
  intro l
  induction l with
  | nil => intro a ha _; exact ha
  | cons x l ih =>
    intro a ha hl
    exact ih (min a (f x)) (le_min ha (hl x (List.mem_cons_self _ _)))
      (fun y hy => hl y (List.mem_cons_of_mem _ hy))

theorem le_foldl_max_proj {α : Type} (f : α → ℝ) :
    ∀ (l : List α) (a : ℝ), a ≤ l.foldl (fun m q => max m (f q)) a := by
  intro l
  induction l with
  | nil => intro a; exact le_refl a
  | cons x l ih => intro a; exact (le_max_left a (f x)).trans (ih (max a (f x)))

/-- C10: the heuristically fitted params are always valid — on the empty
default and on any estimator output for a positive bin width. -/
theorem C10_fitted_params_valid (samples : List Sample) (w : ℝ) (hw : 0 < w) :
    (fitVariogramParams (calculateSemivariogram samples w)).Valid := by
  rcases hE : calculateSemivariogram samples w with _ | ⟨e, es⟩
  · refine ⟨by norm_num [fitVariogramParams], by norm_num [fitVariogramParams],
      by norm_num [fitVariogramParams]⟩
  · have hmem : ∀ pt ∈ e :: es, 0 ≤ pt.semivariance ∧ 0 < pt.distance := by
      intro pt hpt
      have h := calculateSemivariogram_mem samples w hw pt (hE ▸ hpt)
      exact ⟨h.2.1, h.2.2⟩
    have h1 : 0 ≤ es.foldl (fun m q => min m q.semivariance) e.semivariance :=
      foldl_min_proj_nonneg _ es _ (hmem e (List.mem_cons_self _ _)).1
        (fun x hx => (hmem x (List.mem_cons_of_mem _ hx)).1)
    have h2 : es.foldl (fun m q => min m q.semivariance) e.semivariance ≤ e.semivariance :=
      foldl_min_proj_le _ es _
    have h3 : e.semivariance ≤ es.foldl (fun m q => max m q.semivariance) e.semivariance :=
      le_foldl_max_proj _ es _
    have h4 : 0 < es.foldl (fun m q => max m q.distance) e.distance :=
      lt_of_lt_of_le (hmem e (List.mem_cons_self _ _)).2 (le_foldl_max_proj _ es _)
    refine ⟨?_, ?_, ?_⟩
    · show 0 ≤ (es.foldl (fun m q => min m q.semivariance) e.semivariance) * 0.1
      nlinarith
    · show (es.foldl (fun m q => min m q.semivariance) e.semivariance) * 0.1 ≤
        (es.foldl (fun m q => max m q.semivariance) e.semivariance) * 1.1
      nlinarith
    · show 0 < (es.foldl (fun m q => max m q.distance) e.distance) * 0.5
      nlinarith

/-- C10 witness. -/
theorem C10_fitted_params_valid_witness :
    (fitVariogramParams (calculateSemivariogram [⟨0, 0, 5⟩, ⟨3, 0, 8⟩, ⟨6, 0, 5⟩] 3)).Valid :=
  C10_fitted_params_valid [⟨0, 0, 5⟩, ⟨3, 0, 8⟩, ⟨6, 0, 5⟩] 3 (by norm_num)

/-- Full evaluation of the estimator on the spec's concrete scenario:
samples `(0,0,5), (3,0,8), (6,0,5)` with bin width 3. The two populated bins
are labeled with midpoints `4.5` and `7.5` (indices 1 and 2), not `3` and `6`. -/
theorem semivariogram_three_samples_eval :
    calculateSemivariogram [⟨0, 0, 5⟩, ⟨3, 0, 8⟩, ⟨6, 0, 5⟩] 3 =
      [⟨4.5, 4.5⟩, ⟨7.5, 0⟩] := by
  have e1 : pairContribution ⟨0, 0, 5⟩ ⟨3, 0, 8⟩ = ⟨3, 4.5⟩ := by
    rw [pairContribution]
    congr 1
    · rw [show ((0:ℝ) - 3) * ((0:ℝ) - 3) + ((0:ℝ) - 0) * ((0:ℝ) - 0) = (3:ℝ)^2 by norm_num]
      exact Real.sqrt_sq (by norm_num)
    · norm_num
  have e2 : pairContribution ⟨0, 0, 5⟩ ⟨6, 0, 5⟩ = ⟨6, 0⟩ := by
    rw [pairContribution]
    congr 1
    · rw [show ((0:ℝ) - 6) * ((0:ℝ) - 6) + ((0:ℝ) - 0) * ((0:ℝ) - 0) = (6:ℝ)^2 by norm_num]
      exact Real.sqrt_sq (by norm_num)
    · norm_num
  have e3 : pairContribution ⟨3, 0, 8⟩ ⟨6, 0, 5⟩ = ⟨3, 4.5⟩ := by
    rw [pairContribution]
    congr 1
    · rw [show ((3:ℝ) - 6) * ((3:ℝ) - 6) + ((0:ℝ) - 0) * ((0:ℝ) - 0) = (3:ℝ)^2 by norm_num]
      exact Real.sqrt_sq (by norm_num)
    · norm_num
  have hap : allPairs [⟨0, 0, 5⟩, ⟨3, 0, 8⟩, ⟨6, 0, 5⟩] =
      [⟨3, 4.5⟩, ⟨6, 0⟩, ⟨3, 4.5⟩] := by
    simp [allPairs, e1, e2, e3]
  rw [calculateSemivariogram, if_neg (by norm_num), hap]
  simp only
  have hmax : ([(⟨6, 0⟩ : EmpiricalPoint), ⟨3, 4.5⟩].foldl
      (fun m q => max m q.distance) 3) = 6 := by
    simp [max_def]
    norm_num
  rw [hmax]
  have hbins : initialBins 3 6 = [⟨1.5, 0, 0⟩, ⟨4.5, 0, 0⟩, ⟨7.5, 0, 0⟩] := by
    rw [initialBins]
    have h3 : ((⌈(6:ℝ)/3⌉ : ℤ)).toNat + 1 = 3 := by
      norm_num
      rfl
    rw [h3]
    simp [List.range_succ]
    norm_num
  rw [hbins]
  have hassign : assignPairs 3 [⟨1.5, 0, 0⟩, ⟨4.5, 0, 0⟩, ⟨7.5, 0, 0⟩]
      [⟨3, 4.5⟩, ⟨6, 0⟩, ⟨3, 4.5⟩] =
      [⟨1.5, 0, 0⟩, ⟨4.5, 2, 9⟩, ⟨7.5, 1, 0⟩] := by
    rw [assignPairs]
    simp only [List.foldl_cons, List.foldl_nil]
    norm_num [updateBin]
  rw [hassign]
  norm_num [List.filter]

/-- C7 counterexample: on the spec's scenario the two returned bins are
labeled `4.5` and `7.5` (bin midpoints), not `3` and `6` as the claim states. -/
theorem C7_counterexample_bin_labels :
    (calculateSemivariogram [⟨0, 0, 5⟩, ⟨3, 0, 8⟩, ⟨6, 0, 5⟩] 3).map
        EmpiricalPoint.distance ≠ [3, 6] := by
  rw [semivariogram_three_samples_eval]
  intro h
  have h45 : (4.5 : ℝ) = 3 := by
    have := congrArg (fun l => l.headI) h
    simpa using this
  norm_num at h45

/-- C7 (amended): on samples `(0,0,5), (3,0,8), (6,0,5)` with `binWidth = 3`,
the estimator returns exactly two bins, labeled with the midpoints `4.5`
(bin index 1) and `7.5` (bin index 2); the pair distances are `3, 6, 3` with
floored indices `1, 2, 1`, so the first bin aggregates 2 pairs (semivariance
`(4.5 + 4.5)/2 = 4.5`) and the second 1 pair (semivariance `0`). -/
theorem C7_amended_semivariogram_scenario :
    calculateSemivariogram [⟨0, 0, 5⟩, ⟨3, 0, 8⟩, ⟨6, 0, 5⟩] 3 =
      [⟨4.5, 4.5⟩, ⟨7.5, 0⟩] ∧
    allPairs [⟨0, 0, 5⟩, ⟨3, 0, 8⟩, ⟨6, 0, 5⟩] = [⟨3, 4.5⟩, ⟨6, 0⟩, ⟨3, 4.5⟩] ∧
    ⌊(3:ℝ) / 3⌋ = 1 ∧ ⌊(6:ℝ) / 3⌋ = 2 ∧
    (4.5 : ℝ) = (4.5 + 4.5) / 2 ∧ (0 : ℝ) = 0 / 1 := by
  refine ⟨semivariogram_three_samples_eval, ?_, by norm_num, by norm_num,
    by norm_num, by norm_num⟩
  have e1 : pairContribution ⟨0, 0, 5⟩ ⟨3, 0, 8⟩ = ⟨3, 4.5⟩ := by
    rw [pairContribution]
    congr 1
    · rw [show ((0:ℝ) - 3) * ((0:ℝ) - 3) + ((0:ℝ) - 0) * ((0:ℝ) - 0) = (3:ℝ)^2 by norm_num]
      exact Real.sqrt_sq (by norm_num)
    · norm_num
  have e2 : pairContribution ⟨0, 0, 5⟩ ⟨6, 0, 5⟩ = ⟨6, 0⟩ := by
    rw [pairContribution]
    congr 1
    · rw [show ((0:ℝ) - 6) * ((0:ℝ) - 6) + ((0:ℝ) - 0) * ((0:ℝ) - 0) = (6:ℝ)^2 by norm_num]
      exact Real.sqrt_sq (by norm_num)
    · norm_num
  have e3 : pairContribution ⟨3, 0, 8⟩ ⟨6, 0, 5⟩ = ⟨3, 4.5⟩ := by
    rw [pairContribution]
    congr 1
    · rw [show ((3:ℝ) - 6) * ((3:ℝ) - 6) + ((0:ℝ) - 0) * ((0:ℝ) - 0) = (3:ℝ)^2 by norm_num]
      exact Real.sqrt_sq (by norm_num)
    · norm_num
  simp [allPairs, e1, e2, e3]

/-- C9 counterexample: on the empty surface the source divides `0/0` and
returns `NaN` (modelled `none`), not a nonnegative real. -/
theorem C9_counterexample_empty_surface :
    ¬ ∃ r : ℝ, calculateStdDev [] = some r ∧ 0 ≤ r := by
  rintro ⟨r, hr, _⟩
  rw [calculateStdDev] at hr
  simp [surfaceCount] at hr

/-- C9 (amended): on every surface with at least one cell, `calculateStdDev`
returns a real number `≥ 0`, computed as `sqrt(max(E[x²] - E[x]², 0))`. -/
theorem C9_amended_stdDev_nonneg (surface : List (List ℝ))
    (h : surfaceCount surface ≠ 0) :
    ∃ r : ℝ, calculateStdDev surface = some r ∧ 0 ≤ r ∧
      r = Real.sqrt (max (surfaceSumSq surface / (surfaceCount surface : ℝ) -
        (surfaceSum surface / (surfaceCount surface : ℝ)) *
        (surfaceSum surface / (surfaceCount surface : ℝ))) 0) :=
  ⟨_, by rw [calculateStdDev, if_neg h], Real.sqrt_nonneg _, rfl⟩

/-- C9 witness. -/
theorem C9_amended_stdDev_nonneg_witness :
    ∃ r : ℝ, calculateStdDev [[1, 2]] = some r ∧ 0 ≤ r ∧
      r = Real.sqrt (max (surfaceSumSq [[1, 2]] / (surfaceCount [[1, 2]] : ℝ) -
        (surfaceSum [[1, 2]] / (surfaceCount [[1, 2]] : ℝ)) *
        (surfaceSum [[1, 2]] / (surfaceCount [[1, 2]] : ℝ))) 0) :=
  C9_amended_stdDev_nonneg [[1, 2]] (by simp [surfaceCount])

/-- If some sample sits exactly at the query point, `krigePoint` returns the
`z` of the first such sample in list order. -/
theorem krigePoint_find_eq (x y : ℝ) (samples : List Sample)
    (params : VariogramParams) (t : Sample)
    (hfind : samples.find? (fun s => s.x = x ∧ s.y = y) = some t) :
    krigePoint x y samples params = t.z := by
  have hne : samples.length ≠ 0 := by
    intro h
    rw [List.length_eq_zero.1 h] at hfind
    simp at hfind
  rw [krigePoint, if_neg hne, hfind]

/-- Exact-match behaviour of `krigePoint`: the first sample at the query
location wins; under pairwise-distinct locations it is the unique match. -/
theorem krigePoint_exact (x y : ℝ) (samples : List Sample)
    (params : VariogramParams) (s : Sample)
    (hs : s ∈ samples) (hx : s.x = x) (hy : s.y = y) :
    (∃ t ∈ samples, t.x = x ∧ t.y = y ∧ krigePoint x y samples params = t.z) ∧
    (samples.Pairwise (fun a b => ¬(a.x = b.x ∧ a.y = b.y)) →
      krigePoint x y samples params = s.z) := by
  have hsome : (samples.find? (fun s => s.x = x ∧ s.y = y)).isSome := by
    rw [List.find?_isSome]
    exact ⟨s, hs, by simp [hx, hy]⟩
  obtain ⟨t, hfind⟩ := Option.isSome_iff_exists.1 hsome
  have htmem : t ∈ samples := List.mem_of_find?_eq_some hfind
  have htp : t.x = x ∧ t.y = y := by
    have := List.find?_some hfind
    simpa using this
  have heval : krigePoint x y samples params = t.z :=
    krigePoint_find_eq x y samples params t hfind
  refine ⟨⟨t, htmem, htp.1, htp.2, heval⟩, ?_⟩
  intro hdist
  have hts : t = s := by
    by_contra hne
    have hsym : Symmetric (fun a b : Sample => ¬(a.x = b.x ∧ a.y = b.y)) := by
      intro a b hab hba
      exact hab ⟨hba.1.symm, hba.2.symm⟩
    have := List.Pairwise.forall hsym hdist htmem hs hne
    exact this ⟨by rw [htp.1, hx], by rw [htp.2, hy]⟩
  rw [heval, hts]

/-- C1: when the query point coincides with a sample's location, `krigePoint`
returns the `z` of a sample at that location (the first such sample in list
order); when sample locations are pairwise distinct — the spec's session
invariant — this is the unique matching sample's `z`. -/
theorem C1_exact_interpolation (x y : ℝ) (samples : List Sample)
    (params : VariogramParams) (s : Sample)
    (hs : s ∈ samples) (hx : s.x = x) (hy : s.y = y) :
    (∃ t ∈ samples, t.x = x ∧ t.y = y ∧ krigePoint x y samples params = t.z) ∧
    (samples.Pairwise (fun a b => ¬(a.x = b.x ∧ a.y = b.y)) →
      krigePoint x y samples params = s.z) :=
  krigePoint_exact x y samples params s hs hx hy

/-- C1 witness. -/
theorem C1_exact_interpolation_witness :
    krigePoint 1 2 [⟨1, 2, 7⟩] (VariogramParams.mk 0 1 10) = 7 :=
  (C1_exact_interpolation 1 2 [⟨1, 2, 7⟩] (VariogramParams.mk 0 1 10) ⟨1, 2, 7⟩
    (by simp) rfl rfl).2 (by simp)

/-- C2: with two samples at the same location (and any differing values), the
kriging system's second elimination column has no pivot of magnitude ≥ 1e-10,
so `gaussianElimination` reports the system singular (`none`), and for any
query point other than that location `krigePoint` returns the
inverse-distance-weighting fallback. -/
theorem C2_duplicate_location_singular (a b z1 z2 x y : ℝ)
    (params : VariogramParams) (hz : z1 ≠ z2) (hq : (x, y) ≠ (a, b)) :
    gaussianElimination 3 (krigingMatrix [⟨a, b, z1⟩, ⟨a, b, z2⟩] params)
        (krigingRhs x y [⟨a, b, z1⟩, ⟨a, b, z2⟩] params) = none ∧
    krigePoint x y [⟨a, b, z1⟩, ⟨a, b, z2⟩] params =
      inverseDistanceWeighting x y [⟨a, b, z1⟩, ⟨a, b, z2⟩] := by
  set A := krigingMatrix [⟨a, b, z1⟩, ⟨a, b, z2⟩] params with hA
  set r := krigingRhs x y [⟨a, b, z1⟩, ⟨a, b, z2⟩] params with hr
  have hd : pointDistance a b (⟨a, b, z2⟩ : Sample) = 0 := by
    simp [pointDistance]
  have hd' : pointDistance a b (⟨a, b, z1⟩ : Sample) = 0 := by
    simp [pointDistance]
  have hA00 : A 0 0 = 0 := by simp [hA, krigingMatrix]
  have hA01 : A 0 1 = 0 := by
    simp [hA, krigingMatrix, sampleGet, hd, sphericalVariogram_zero]
  have hA10 : A 1 0 = 0 := by
    simp [hA, krigingMatrix, sampleGet, hd', sphericalVariogram_zero]
  have hA11 : A 1 1 = 0 := by simp [hA, krigingMatrix]
  have hA20 : A 2 0 = 1 := by simp [hA, krigingMatrix]
  have hA21 : A 2 1 = 1 := by simp [hA, krigingMatrix]
  have hpivot : pivotRow A 3 0 = 2 := by
    rw [pivotRow]
    rw [show List.range' (0 + 1) (3 - (0 + 1)) = [1, 2] from rfl]
    norm_num [List.foldl_cons, List.foldl_nil, hA00, hA10, hA20]
  have hfe0 : feStep 3 0 A r =
      some (elimStep 3 0 (fun k j => A (swapIdx 0 2 k) j)
        (fun k => r (swapIdx 0 2 k))) := by
    rw [feStep]
    simp only [hpivot]
    rw [if_neg]
    rw [show swapIdx 0 2 0 = 2 from rfl]
    rw [hA20]
    norm_num
  set m2 := (elimStep 3 0 (fun k j => A (swapIdx 0 2 k) j)
    (fun k => r (swapIdx 0 2 k))).1 with hm2def
  set r2 := (elimStep 3 0 (fun k j => A (swapIdx 0 2 k) j)
    (fun k => r (swapIdx 0 2 k))).2 with hr2def
  have hm211 : m2 1 1 = 0 := by
    rw [hm2def, elimStep]
    simp only
    rw [if_pos (by norm_num : 0 < 1 ∧ 1 < 3 ∧ 0 ≤ 1 ∧ 1 < 3)]
    rw [show swapIdx 0 2 1 = 1 from rfl, show swapIdx 0 2 0 = 2 from rfl]
    rw [hA11, hA10, hA20, hA21]
    norm_num
  have hm221 : m2 2 1 = 0 := by
    rw [hm2def, elimStep]
    simp only
    rw [if_pos (by norm_num : 0 < 2 ∧ 2 < 3 ∧ 0 ≤ 1 ∧ 1 < 3)]
    rw [show swapIdx 0 2 2 = 0 from rfl, show swapIdx 0 2 0 = 2 from rfl]
    rw [hA01, hA00, hA20, hA21]
    norm_num
  have hpivot2 : pivotRow m2 3 1 = 1 := by
    rw [pivotRow]
    rw [show List.range' (1 + 1) (3 - (1 + 1)) = [2] from rfl]
    simp only [List.foldl_cons, List.foldl_nil]
    rw [hm221, hm211]
    norm_num
  have hfe1 : feStep 3 1 m2 r2 = none := by
    rw [feStep]
    simp only [hpivot2]
    rw [if_pos]
    rw [show swapIdx 1 1 1 = 1 from rfl]
    rw [hm211]
    norm_num
  have hforward : forwardElim 3 3 A r = none := by
    show forwardElim 3 (2 + 1) A r = none
    rw [forwardElim]
    have hsub : (3 : ℕ) - (2 + 1) = 0 := rfl
    rw [hsub, hfe0]
    show forwardElim 3 (1 + 1) m2 r2 = none
    rw [forwardElim]
    have hsub2 : (3 : ℕ) - (1 + 1) = 1 := rfl
    rw [hsub2, hfe1]
  have hGE : gaussianElimination 3 A r = none := by
    rw [gaussianElimination, hforward]
  refine ⟨hGE, ?_⟩
  have hqab : ¬(x = a ∧ y = b) := by
    intro h
    exact hq (by rw [h.1, h.2])
  have hfind : ([⟨a, b, z1⟩, ⟨a, b, z2⟩] : List Sample).find?
      (fun s => s.x = x ∧ s.y = y) = none := by
    rw [List.find?_eq_none]
    intro s hs
    rcases List.mem_cons.1 hs with rfl | hs'
    · simp only [decide_eq_true_eq]
      intro h
      exact hqab ⟨h.1.symm, h.2.symm⟩
    · rcases List.mem_cons.1 hs' with rfl | hs''
      · simp only [decide_eq_true_eq]
        intro h
        exact hqab ⟨h.1.symm, h.2.symm⟩
      · simp at hs''
  rw [krigePoint, if_neg (by norm_num), hfind]
  show (match gaussianElimination (2 + 1) A r with
    | none => inverseDistanceWeighting x y [⟨a, b, z1⟩, ⟨a, b, z2⟩]
    | some w => (List.range 2).foldl
        (fun acc i => acc + w i * (sampleGet [⟨a, b, z1⟩, ⟨a, b, z2⟩] i).z) 0) =
    inverseDistanceWeighting x y [⟨a, b, z1⟩, ⟨a, b, z2⟩]
  rw [show (2 : ℕ) + 1 = 3 from rfl, hGE]

/-- C2 witness. -/
theorem C2_duplicate_location_singular_witness :
    gaussianElimination 3
        (krigingMatrix [⟨0, 0, 0⟩, ⟨0, 0, 1⟩] (VariogramParams.mk 0 1 10))
        (krigingRhs 1 0 [⟨0, 0, 0⟩, ⟨0, 0, 1⟩] (VariogramParams.mk 0 1 10)) = none ∧
    krigePoint 1 0 [⟨0, 0, 0⟩, ⟨0, 0, 1⟩] (VariogramParams.mk 0 1 10) =
      inverseDistanceWeighting 1 0 [⟨0, 0, 0⟩, ⟨0, 0, 1⟩] :=
  C2_duplicate_location_singular 0 0 0 1 1 0 (VariogramParams.mk 0 1 10)
    (by norm_num) (by norm_num)

theorem swapIdx_invol (i p k : ℕ) : swapIdx i p (swapIdx i p k) = k := by
  unfold swapIdx
  split_ifs <;> omega

theorem swapIdx_lt {N : ℕ} (i p k : ℕ) (hi : i < N) (hp : p < N) (hk : k < N) :
    swapIdx i p k < N := by
  unfold swapIdx
  split_ifs <;> omega

theorem swapIdx_ge (i p k : ℕ) (hp : i ≤ p) (hk : i ≤ k) : i ≤ swapIdx i p k := by
  unfold swapIdx
  split_ifs <;> omega

theorem swapIdx_of_lt (i p k : ℕ) (hp : i ≤ p) (hk : k < i) : swapIdx i p k = k := by
  unfold swapIdx
  split_ifs <;> omega

theorem foldl_pick_mem {f : ℕ → ℕ → Bool} :
    ∀ (l : List ℕ) (a : ℕ), l.foldl (fun best k => if f best k then k else best) a ∈ a :: l := by
  intro l
  induction l with
  | nil => intro a; simp
  | cons b l ih =>
    intro a
    rw [List.foldl_cons]
    by_cases hb : f a b = true
    · rw [if_pos hb]
      rcases List.mem_cons.1 (ih b) with h | h
      · rw [h]
        exact List.mem_cons_of_mem _ (List.mem_cons_self _ _)
      · exact List.mem_cons_of_mem _ (List.mem_cons_of_mem _ h)
    · rw [if_neg hb]
      rcases List.mem_cons.1 (ih a) with h | h
      · rw [h]
        exact List.mem_cons_self _ _
      · exact List.mem_cons_of_mem _ (List.mem_cons_of_mem _ h)

theorem pivotRow_mem (m : ℕ → ℕ → ℝ) (N i : ℕ) :
    pivotRow m N i ∈ i :: List.range' (i + 1) (N - (i + 1)) := by
  rw [pivotRow]
  have h := foldl_pick_mem (f := fun best k => decide (|m k i| > |m best i|))
    (List.range' (i + 1) (N - (i + 1))) i
  simpa using h

theorem pivotRow_ge (m : ℕ → ℕ → ℝ) (N i : ℕ) : i ≤ pivotRow m N i := by
  rcases List.mem_cons.1 (pivotRow_mem m N i) with h | h
  · omega
  · have := List.mem_range'_1.1 h
    omega

theorem pivotRow_lt (m : ℕ → ℕ → ℝ) (N i : ℕ) (hi : i < N) : pivotRow m N i < N := by
  rcases List.mem_cons.1 (pivotRow_mem m N i) with h | h
  · omega
  · have := List.mem_range'_1.1 h
    omega

theorem solves_reindex (N : ℕ) (m : ℕ → ℕ → ℝ) (r x : ℕ → ℝ) (sw : ℕ → ℕ)
    (hlt : ∀ k, k < N → sw k < N) (hinv : ∀ k, sw (sw k) = k) :
    SolvesSystem N m r x ↔ SolvesSystem N (fun k j => m (sw k) j) (fun k => r (sw k)) x := by
  constructor
  · intro h k hk
    exact h (sw k) (hlt k hk)
  · intro h k hk
    have hk' : sw k < N := hlt k hk
    have := h (sw k) hk'
    simpa [hinv] using this

theorem elimStep_fst_eq (N i : ℕ) (m : ℕ → ℕ → ℝ) (r : ℕ → ℝ)
    (hZ : LowerZeros N i m) (hiN : i < N) (k j : ℕ) (hik : i < k) (hkN : k < N)
    (hjN : j < N) :
    (elimStep N i m r).1 k j = m k j - m k i / m i i * m i j := by
  rw [elimStep]
  simp only
  by_cases hij : i ≤ j
  · rw [if_pos ⟨hik, hkN, hij, hjN⟩]
  · rw [if_neg (by tauto)]
    have hj : m i j = 0 := hZ i j hiN (by omega) (by omega)
    rw [hj]
    ring

theorem elimStep_fst_eq_of_le (N i : ℕ) (m : ℕ → ℕ → ℝ) (r : ℕ → ℝ)
    (k j : ℕ) (hik : k ≤ i) :
    (elimStep N i m r).1 k j = m k j := by
  rw [elimStep]
  simp only
  rw [if_neg (by omega)]

theorem elimStep_snd_eq (N i : ℕ) (m : ℕ → ℕ → ℝ) (r : ℕ → ℝ)
    (k : ℕ) (hik : i < k) (hkN : k < N) :
    (elimStep N i m r).2 k = r k - m k i / m i i * r i := by
  rw [elimStep]
  simp only
  rw [if_pos ⟨hik, hkN⟩]

theorem elimStep_snd_eq_of_le (N i : ℕ) (m : ℕ → ℕ → ℝ) (r : ℕ → ℝ)
    (k : ℕ) (hik : k ≤ i) :
    (elimStep N i m r).2 k = r k := by
  rw [elimStep]
  simp only
  rw [if_neg (by omega)]

theorem elimStep_solves (N i : ℕ) (m : ℕ → ℕ → ℝ) (r : ℕ → ℝ)
    (hiN : i < N) (hZ : LowerZeros N i m) (hpiv : m i i ≠ 0) (x : ℕ → ℝ) :
    SolvesSystem N m r x ↔
      SolvesSystem N (elimStep N i m r).1 (elimStep N i m r).2 x := by
  have hrow : ∀ k, i < k → k < N →
      ∑ j in Finset.range N, (elimStep N i m r).1 k j * x j =
        (∑ j in Finset.range N, m k j * x j) -
          m k i / m i i * ∑ j in Finset.range N, m i j * x j := by
    intro k hik hkN
    rw [Finset.mul_sum, ← Finset.sum_sub_distrib]
    refine Finset.sum_congr rfl ?_
    intro j hj
    rw [elimStep_fst_eq N i m r hZ hiN k j hik hkN (Finset.mem_range.1 hj)]
    ring
  have hrow_le : ∀ k, k ≤ i →
      ∑ j in Finset.range N, (elimStep N i m r).1 k j * x j =
        ∑ j in Finset.range N, m k j * x j := by
    intro k hk
    refine Finset.sum_congr rfl ?_
    intro j _
    rw [elimStep_fst_eq_of_le N i m r k j hk]
  constructor
  · intro h k hkN
    by_cases hik : i < k
    · rw [hrow k hik hkN, elimStep_snd_eq N i m r k hik hkN, h k hkN, h i hiN]
    · rw [hrow_le k (by omega), elimStep_snd_eq_of_le N i m r k (by omega)]
      exact h k hkN
  · intro h k hkN
    have hi_eq : ∑ j in Finset.range N, m i j * x j = r i := by
      have := h i hiN
      rw [hrow_le i le_rfl, elimStep_snd_eq_of_le N i m r i le_rfl] at this
      exact this
    by_cases hik : i < k
    · have := h k hkN
      rw [hrow k hik hkN, elimStep_snd_eq N i m r k hik hkN, hi_eq] at this
      linarith
    · have := h k hkN
      rw [hrow_le k (by omega), elimStep_snd_eq_of_le N i m r k (by omega)] at this
      exact this

theorem elimStep_lowerZeros (N i : ℕ) (m : ℕ → ℕ → ℝ) (r : ℕ → ℝ)
    (hiN : i < N) (hZ : LowerZeros N i m) (hpiv : m i i ≠ 0) :
    LowerZeros N (i + 1) (elimStep N i m r).1 := by
  intro k j hkN hjk hji1
  by_cases hik : i < k
  · by_cases hji : j < i
    · rw [elimStep]
      simp only
      rw [if_neg (by omega)]
      exact hZ k j hkN hjk hji
    · have hj : j = i := by omega
      rw [hj, elimStep_fst_eq N i m r hZ hiN k i hik hkN hiN]
      rw [div_mul_cancel₀ _ hpiv, sub_self]
  · rw [elimStep_fst_eq_of_le N i m r k j (by omega)]
    exact hZ k j hkN hjk (by omega)

theorem feStep_spec (N i : ℕ) (m m' : ℕ → ℕ → ℝ) (r r' : ℕ → ℝ)
    (hiN : i < N) (hZ : LowerZeros N i m) (hdiag : ∀ t, t < i → m t t ≠ 0)
    (hstep : feStep N i m r = some (m', r')) :
    LowerZeros N (i + 1) m' ∧ (∀ t, t < i + 1 → m' t t ≠ 0) ∧
    (∀ x, SolvesSystem N m r x ↔ SolvesSystem N m' r' x) := by
  rw [feStep] at hstep
  simp only at hstep
  set p := pivotRow m N i with hp
  set m1 := fun k j => m (swapIdx i p k) j with hm1
  set r1 := fun k => r (swapIdx i p k) with hr1
  by_cases hc : |m1 i i| < 1e-10
  · rw [if_pos hc] at hstep
    exact absurd hstep (by simp)
  · rw [if_neg hc] at hstep
    have hpair := Option.some.inj hstep
    have hm' : m' = (elimStep N i m1 r1).1 := (congrArg Prod.fst hpair).symm
    have hr' : r' = (elimStep N i m1 r1).2 := (congrArg Prod.snd hpair).symm
    have hpge : i ≤ p := pivotRow_ge m N i
    have hplt : p < N := pivotRow_lt m N i hiN
    have hswlt : ∀ k, k < N → swapIdx i p k < N :=
      fun k hk => swapIdx_lt i p k hiN hplt hk
    have hswinv : ∀ k, swapIdx i p (swapIdx i p k) = k := fun k => swapIdx_invol i p k
    have hZ1 : LowerZeros N i m1 := by
      intro k j hkN hjk hji
      show m (swapIdx i p k) j = 0
      by_cases hki : k < i
      · rw [swapIdx_of_lt i p k hpge hki]
        exact hZ k j hkN hjk hji
      · have hge : i ≤ swapIdx i p k := swapIdx_ge i p k hpge (by omega)
        exact hZ (swapIdx i p k) j (hswlt k hkN) (by omega) hji
    have hpiv1 : m1 i i ≠ 0 := by
      intro h0
      rw [h0] at hc
      simp at hc
      norm_num at hc
    have hdiag1 : ∀ t, t < i → m1 t t = m t t := by
      intro t ht
      show m (swapIdx i p t) t = m t t
      rw [swapIdx_of_lt i p t hpge ht]
    refine ⟨?_, ?_, ?_⟩
    · rw [hm']
      exact elimStep_lowerZeros N i m1 r1 hiN hZ1 hpiv1
    · intro t ht
      rw [hm', elimStep_fst_eq_of_le N i m1 r1 t t (by omega)]
      by_cases hti : t < i
      · rw [hdiag1 t hti]
        exact hdiag t hti
      · have : t = i := by omega
        rw [this]
        exact hpiv1
    · intro x
      rw [hm', hr']
      exact (solves_reindex N m r x (swapIdx i p) hswlt hswinv).trans
        (elimStep_solves N i m1 r1 hiN hZ1 hpiv1 x)

theorem forwardElim_spec (N : ℕ) :
    ∀ (fuel : ℕ) (m m' : ℕ → ℕ → ℝ) (r r' : ℕ → ℝ), fuel ≤ N →
      LowerZeros N (N - fuel) m → (∀ t, t < N - fuel → m t t ≠ 0) →
      forwardElim N fuel m r = some (m', r') →
      LowerZeros N N m' ∧ (∀ t, t < N → m' t t ≠ 0) ∧
      (∀ x, SolvesSystem N m r x ↔ SolvesSystem N m' r' x) := by
  intro fuel
  induction fuel with
  | zero =>
    intro m m' r r' _ hZ hdiag hrun
    rw [forwardElim] at hrun
    have hpair := Option.some.inj hrun
    have hm' : m' = m := (congrArg Prod.fst hpair).symm
    have hr' : r' = r := (congrArg Prod.snd hpair).symm
    subst hm'
    subst hr'
    simpa using ⟨hZ, hdiag⟩
  | succ fuel ih =>
    intro m m' r r' hfuel hZ hdiag hrun
    rw [forwardElim] at hrun
    rcases heq : feStep N (N - (fuel + 1)) m r with _ | ⟨m2, r2⟩
    · rw [heq] at hrun
      exact absurd hrun (by simp)
    · rw [heq] at hrun
      have hiN : N - (fuel + 1) < N := by omega
      obtain ⟨hZ2, hdiag2, hiff2⟩ :=
        feStep_spec N (N - (fuel + 1)) m m2 r r2 hiN hZ hdiag heq
      have hsub : N - (fuel + 1) + 1 = N - fuel := by omega
      rw [hsub] at hZ2 hdiag2
      obtain ⟨hZ', hdiag', hiff'⟩ :=
        ih m2 m' r2 r' (by omega) hZ2 hdiag2 hrun
      exact ⟨hZ', hdiag', fun x => (hiff2 x).trans (hiff' x)⟩

theorem backSub_stable (N : ℕ) (m : ℕ → ℕ → ℝ) (r : ℕ → ℝ) (k t : ℕ)
    (ht : t ≠ N - (k + 1)) : backSub N m r (k + 1) t = backSub N m r k t := by
  rw [backSub]
  exact if_neg ht

theorem backSub_agree (N : ℕ) (m : ℕ → ℕ → ℝ) (r : ℕ → ℝ) :
    ∀ k' k : ℕ, k ≤ k' → k' ≤ N → ∀ t, N - k ≤ t → t < N →
      backSub N m r k' t = backSub N m r k t := by
  intro k'
  induction k' with
  | zero =>
    intro k hk _ t _ _
    rw [Nat.le_zero.1 hk]
  | succ k' ih =>
    intro k hk hk'N t ht htN
    rcases Nat.eq_or_lt_of_le hk with rfl | hlt
    · rfl
    · have hk'' : k ≤ k' := Nat.lt_succ_iff.1 hlt
      rw [backSub_stable N m r k' t (by omega)]
      exact ih k hk'' (by omega) t ht htN

theorem backSub_row (N : ℕ) (m : ℕ → ℕ → ℝ) (r : ℕ → ℝ) (t : ℕ) (htN : t < N) :
    backSub N m r N t =
      (r t - ∑ j in Finset.Ico (t + 1) N, m t j * backSub N m r N j) / m t t := by
  have hk : t = N - (N - t - 1 + 1) := by omega
  have h1 : backSub N m r N t = backSub N m r (N - t - 1 + 1) t :=
    backSub_agree N m r N (N - t - 1 + 1) (by omega) le_rfl t (by omega) htN
  rw [h1]
  simp only [backSub]
  rw [if_pos hk]
  have harg : N - (N - t - 1 + 1) = t := by omega
  rw [harg]
  congr 1
  congr 1
  refine Finset.sum_congr rfl ?_
  intro j hj
  have hj' := Finset.mem_Ico.1 hj
  congr 1
  exact (backSub_agree N m r N (N - t - 1) (by omega) le_rfl j (by omega) hj'.2).symm

theorem sum_range_split_at (N t : ℕ) (f : ℕ → ℝ) (htN : t < N) :
    ∑ j in Finset.range N, f j =
      (∑ j in Finset.Ico 0 t, f j) + f t + ∑ j in Finset.Ico (t + 1) N, f j := by
  rw [Finset.range_eq_Ico]
  rw [← Finset.sum_Ico_consecutive (fun j => f j) (Nat.zero_le t) (le_of_lt htN)]
  rw [Finset.sum_eq_sum_Ico_succ_bot htN (fun j => f j)]
  ring

theorem backSub_solves (N : ℕ) (m : ℕ → ℕ → ℝ) (r : ℕ → ℝ)
    (hZ : LowerZeros N N m) (hdiag : ∀ t, t < N → m t t ≠ 0) :
    SolvesSystem N m r (backSub N m r N) := by
  intro t htN
  rw [sum_range_split_at N t (fun j => m t j * backSub N m r N j) htN]
  have hlow : ∑ j in Finset.Ico 0 t, m t j * backSub N m r N j = 0 := by
    refine Finset.sum_eq_zero ?_
    intro j hj
    have hj' := Finset.mem_Ico.1 hj
    rw [hZ t j htN hj'.2 (by omega)]
    ring
  rw [hlow, zero_add, backSub_row N m r t htN]
  rw [mul_div_cancel₀ _ (hdiag t htN)]
  ring

theorem backSub_unique (N : ℕ) (m : ℕ → ℕ → ℝ) (r : ℕ → ℝ) (x : ℕ → ℝ)
    (hZ : LowerZeros N N m) (hdiag : ∀ t, t < N → m t t ≠ 0)
    (hx : SolvesSystem N m r x) : ∀ t, t < N → x t = backSub N m r N t := by
  have key : ∀ d t, N - d ≤ t → t < N → x t = backSub N m r N t := by
    intro d
    induction d with
    | zero =>
      intro t ht htN
      omega
    | succ d ih =>
      intro t ht htN
      by_cases htd : N - d ≤ t
      · exact ih t htd htN
      · have hteq : t = N - (d + 1) := by omega
        have hrow := hx t htN
        rw [sum_range_split_at N t (fun j => m t j * x j) htN] at hrow
        have hlow : ∑ j in Finset.Ico 0 t, m t j * x j = 0 := by
          refine Finset.sum_eq_zero ?_
          intro j hj
          have hj' := Finset.mem_Ico.1 hj
          rw [hZ t j htN hj'.2 (by omega)]
          ring
        rw [hlow, zero_add] at hrow
        have hupper : ∑ j in Finset.Ico (t + 1) N, m t j * x j =
            ∑ j in Finset.Ico (t + 1) N, m t j * backSub N m r N j := by
          refine Finset.sum_congr rfl ?_
          intro j hj
          have hj' := Finset.mem_Ico.1 hj
          rw [ih j (by omega) hj'.2]
        rw [hupper] at hrow
        have hxt : x t = (r t - ∑ j in Finset.Ico (t + 1) N,
            m t j * backSub N m r N j) / m t t := by
          rw [eq_div_iff (hdiag t htN)]
          linarith
        rw [hxt, ← backSub_row N m r t htN]
  exact fun t htN => key N t (by omega) htN

/-- Specification of the source's Gaussian elimination: on success the result
solves the input system, and it is that system's unique solution. -/
theorem gaussianElimination_spec (N : ℕ) (A : ℕ → ℕ → ℝ) (b : ℕ → ℝ) (w : ℕ → ℝ)
    (h : gaussianElimination N A b = some w) :
    SolvesSystem N A b w ∧ ∀ x, SolvesSystem N A b x → ∀ t, t < N → x t = w t := by
  rw [gaussianElimination] at h
  rcases heq : forwardElim N N A b with _ | ⟨m, r⟩
  · rw [heq] at h
    exact Option.noConfusion h
  · rw [heq] at h
    have hw : w = backSub N m r N := (Option.some.inj h).symm
    have hZ0 : LowerZeros N (N - N) A := by
      intro k j _ _ hj
      omega
    have hdiag0 : ∀ t, t < N - N → A t t ≠ 0 := by
      intro t ht
      omega
    obtain ⟨hZ, hdiag, hiff⟩ := forwardElim_spec N N A m b r le_rfl hZ0 hdiag0 heq
    constructor
    · rw [hw]
      exact (hiff _).mpr (backSub_solves N m r hZ hdiag)
    · intro x hx t htN
      rw [hw]
      exact backSub_unique N m r x hZ hdiag ((hiff x).mp hx) t htN

theorem sum_range_reindex (n : ℕ) (σ : ℕ → ℕ) (hmap : ∀ i, i < n → σ i < n)
    (hinj : ∀ i j, i < n → j < n → σ i = σ j → i = j) (f : ℕ → ℝ) :
    ∑ i in Finset.range n, f (σ i) = ∑ i in Finset.range n, f i := by
  refine Finset.sum_bij (fun a _ => σ a) ?_ ?_ ?_ ?_
  · intro a ha
    exact Finset.mem_range.2 (hmap a (Finset.mem_range.1 ha))
  · intro a₁ h₁ a₂ h₂ he
    exact hinj a₁ a₂ (Finset.mem_range.1 h₁) (Finset.mem_range.1 h₂) he
  · intro b hb
    obtain ⟨a, ha, he⟩ := Finset.surj_on_of_inj_on_of_card_le (fun a _ => σ a)
      (fun a ha => Finset.mem_range.2 (hmap a (Finset.mem_range.1 ha)))
      (fun a₁ a₂ h₁ h₂ he => hinj a₁ a₂ (Finset.mem_range.1 h₁) (Finset.mem_range.1 h₂) he)
      le_rfl b hb
    exact ⟨a, ha, he.symm⟩
  · intro a ha
    rfl

theorem foldl_add_eq (f : ℕ → ℝ) :
    ∀ (l : List ℕ) (a : ℝ), l.foldl (fun acc i => acc + f i) a = a + (l.map f).sum := by
  intro l
  induction l with
  | nil => intro a; simp
  | cons b l ih =>
    intro a
    rw [List.foldl_cons, ih, List.map_cons, List.sum_cons]
    ring

theorem list_range_map_sum (n : ℕ) (f : ℕ → ℝ) :
    ((List.range n).map f).sum = ∑ i in Finset.range n, f i := by
  induction n with
  | zero => simp
  | succ n ih =>
    rw [Finset.sum_range_succ, List.range_succ, List.map_append, List.sum_append, ih]
    simp

/-- The prediction loop of `krigePoint` is the dot product of the weight and
value vectors. -/
theorem prediction_foldl_eq (samples : List Sample) (w : ℕ → ℝ) :
    (List.range samples.length).foldl
        (fun acc i => acc + w i * (sampleGet samples i).z) 0 =
      ∑ i in Finset.range samples.length, w i * (sampleGet samples i).z := by
  rw [foldl_add_eq (fun i => w i * (sampleGet samples i).z) (List.range samples.length) 0]
  rw [zero_add, list_range_map_sum]

theorem sampleGet_mem (l : List Sample) (i : ℕ) (h : i < l.length) :
    sampleGet l i ∈ l := by
  rw [sampleGet, List.getD_eq_get l default h]
  exact List.get_mem l i h

theorem mem_iff_sampleGet (l : List Sample) (s : Sample) :
    s ∈ l ↔ ∃ i, ∃ h : i < l.length, sampleGet l i = s := by
  constructor
  · intro hs
    obtain ⟨⟨i, hi⟩, he⟩ := List.mem_iff_get.1 hs
    exact ⟨i, hi, by rw [sampleGet, List.getD_eq_get l default hi]; exact he⟩
  · rintro ⟨i, hi, rfl⟩
    exact sampleGet_mem l i hi

theorem map_eq_range_map (f : Sample → ℝ) :
    ∀ l : List Sample, l.map f = (List.range l.length).map (fun i => f (sampleGet l i)) := by
  intro l
  induction l with
  | nil => rfl
  | cons a l ih =>
    rw [List.map_cons, List.length_cons, List.range_succ_eq_map, List.map_cons,
      List.map_map, ih]
    simp [sampleGet, Function.comp]

/-- When no sample is within `0.001` of the query, the IDW loop never takes
its early return and computes the normalized weighted sums. -/
theorem idwLoop_no_close (x y : ℝ) :
    ∀ (l : List Sample) (tw ws : ℝ),
      (∀ s ∈ l, ¬ pointDistance x y s < 0.001) →
      idwLoop x y l tw ws =
        if tw + (l.map (fun s => 1 / (pointDistance x y s * pointDistance x y s))).sum > 0 then
          (ws + (l.map (fun s =>
            1 / (pointDistance x y s * pointDistance x y s) * s.z)).sum) /
            (tw + (l.map (fun s => 1 / (pointDistance x y s * pointDistance x y s))).sum)
        else 0 := by
  intro l
  induction l with
  | nil =>
    intro tw ws _
    rw [idwLoop]
    simp
  | cons s l ih =>
    intro tw ws hfar
    rw [idwLoop, if_neg (hfar s (List.mem_cons_self _ _))]
    rw [ih _ _ (fun t ht => hfar t (List.mem_cons_of_mem _ ht))]
    rw [List.map_cons, List.sum_cons, List.map_cons, List.sum_cons]
    rw [show tw + 1 / (pointDistance x y s * pointDistance x y s) +
        (l.map (fun s => 1 / (pointDistance x y s * pointDistance x y s))).sum =
        tw + (1 / (pointDistance x y s * pointDistance x y s) +
          (l.map (fun s => 1 / (pointDistance x y s * pointDistance x y s))).sum)
      from by ring]
    rw [show ws + 1 / (pointDistance x y s * pointDistance x y s) * s.z +
        (l.map (fun s => 1 / (pointDistance x y s * pointDistance x y s) * s.z)).sum =
        ws + (1 / (pointDistance x y s * pointDistance x y s) * s.z +
          (l.map (fun s => 1 / (pointDistance x y s * pointDistance x y s) * s.z)).sum)
      from by ring]

/-- The IDW fallback is order-independent when no sample is within `0.001` of
the query: both of its accumulators are plain sums over the sample list. -/
theorem idw_perm_invariant (x y : ℝ) (samples samples' : List Sample) (σ : ℕ → ℕ)
    (hlen : samples'.length = samples.length)
    (hσlt : ∀ i, i < samples.length → σ i < samples.length)
    (hσinj : ∀ i j, i < samples.length → j < samples.length → σ i = σ j → i = j)
    (hget : ∀ i, i < samples.length → sampleGet samples' i = sampleGet samples (σ i))
    (hfar : ∀ s ∈ samples, ¬ pointDistance x y s < 0.001) :
    inverseDistanceWeighting x y samples = inverseDistanceWeighting x y samples' := by
  have hmem' : ∀ s ∈ samples', s ∈ samples := by
    intro s hs
    obtain ⟨i, hi, rfl⟩ := (mem_iff_sampleGet samples' s).1 hs
    rw [hget i (by omega)]
    exact sampleGet_mem samples (σ i) (hσlt i (by omega))
  have hfar' : ∀ s ∈ samples', ¬ pointDistance x y s < 0.001 :=
    fun s hs => hfar s (hmem' s hs)
  have hsum : ∀ f : Sample → ℝ, (samples'.map f).sum = (samples.map f).sum := by
    intro f
    rw [map_eq_range_map f samples', map_eq_range_map f samples,
      list_range_map_sum, list_range_map_sum, hlen]
    rw [show (∑ i in Finset.range samples.length, f (sampleGet samples' i)) =
        ∑ i in Finset.range samples.length, f (sampleGet samples (σ i)) from
      Finset.sum_congr rfl (fun i hi => by rw [hget i (Finset.mem_range.1 hi)])]
    exact sum_range_reindex samples.length σ hσlt hσinj (fun i => f (sampleGet samples i))
  rw [inverseDistanceWeighting, inverseDistanceWeighting,
    idwLoop_no_close x y samples 0 0 hfar, idwLoop_no_close x y samples' 0 0 hfar',
    hsum, hsum]

theorem extendPerm_lt (n : ℕ) (σ : ℕ → ℕ) (hσlt : ∀ i, i < n → σ i < n) :
    ∀ k, k < n + 1 → extendPerm n σ k < n + 1 := by
  intro k hk
  rw [extendPerm]
  by_cases h : k < n
  · rw [if_pos h]
    exact Nat.lt_succ_of_lt (hσlt k h)
  · rw [if_neg h]
    exact hk

theorem extendPerm_inj (n : ℕ) (σ : ℕ → ℕ) (hσlt : ∀ i, i < n → σ i < n)
    (hσinj : ∀ i j, i < n → j < n → σ i = σ j → i = j) :
    ∀ i j, i < n + 1 → j < n + 1 → extendPerm n σ i = extendPerm n σ j → i = j := by
  intro i j hi hj he
  rw [extendPerm, extendPerm] at he
  by_cases h1 : i < n <;> by_cases h2 : j < n
  · rw [if_pos h1, if_pos h2] at he
    exact hσinj i j h1 h2 he
  · rw [if_pos h1, if_neg h2] at he
    have := hσlt i h1
    omega
  · rw [if_neg h1, if_pos h2] at he
    have := hσlt j h2
    omega
  · rw [if_neg h1, if_neg h2] at he
    exact he

theorem kriging_matrix_transport (samples samples' : List Sample)
    (params : VariogramParams) (σ : ℕ → ℕ)
    (hlen : samples'.length = samples.length)
    (hσlt : ∀ i, i < samples.length → σ i < samples.length)
    (hσinj : ∀ i j, i < samples.length → j < samples.length → σ i = σ j → i = j)
    (hget : ∀ i, i < samples.length → sampleGet samples' i = sampleGet samples (σ i)) :
    ∀ i j, krigingMatrix samples' params i j =
      krigingMatrix samples params (extendPerm samples.length σ i)
        (extendPerm samples.length σ j) := by
  intro i j
  by_cases hin : i < samples.length <;> by_cases hjn : j < samples.length
  · rw [show extendPerm samples.length σ i = σ i from if_pos hin,
      show extendPerm samples.length σ j = σ j from if_pos hjn]
    have h1 : σ i < samples.length := hσlt i hin
    have h2 : σ j < samples.length := hσlt j hjn
    by_cases hij : i = j
    · subst hij
      simp [krigingMatrix, hlen, hin, h1]
    · have hne : σ i ≠ σ j := fun he => hij (hσinj i j hin hjn he)
      simp only [krigingMatrix, hlen]
      rw [if_pos ⟨hin, hjn⟩, if_neg hij, if_pos ⟨h1, h2⟩, if_neg hne,
        hget i hin, hget j hjn]
  · rw [show extendPerm samples.length σ i = σ i from if_pos hin,
      show extendPerm samples.length σ j = j from if_neg hjn]
    have h1 : σ i < samples.length := hσlt i hin
    simp only [krigingMatrix, hlen]
    by_cases hj' : j = samples.length
    · simp [hin, hjn, hj', h1]
    · simp [hin, hjn, hj', h1, (by omega : ¬ i = samples.length),
        (by omega : ¬ σ i = samples.length)]
  · rw [show extendPerm samples.length σ i = i from if_neg hin,
      show extendPerm samples.length σ j = σ j from if_pos hjn]
    have h2 : σ j < samples.length := hσlt j hjn
    simp only [krigingMatrix, hlen]
    by_cases hi' : i = samples.length
    · simp [hin, hjn, hi', h2]
    · simp [hin, hjn, hi', h2]
  · rw [show extendPerm samples.length σ i = i from if_neg hin,
      show extendPerm samples.length σ j = j from if_neg hjn]
    simp [krigingMatrix, hlen, hin, hjn]

theorem kriging_rhs_transport (x y : ℝ) (samples samples' : List Sample)
    (params : VariogramParams) (σ : ℕ → ℕ)
    (hlen : samples'.length = samples.length)
    (hσlt : ∀ i, i < samples.length → σ i < samples.length)
    (hget : ∀ i, i < samples.length → sampleGet samples' i = sampleGet samples (σ i)) :
    ∀ i, krigingRhs x y samples' params i =
      krigingRhs x y samples params (extendPerm samples.length σ i) := by
  intro i
  by_cases hin : i < samples.length
  · rw [show extendPerm samples.length σ i = σ i from if_pos hin]
    have h1 : σ i < samples.length := hσlt i hin
    simp only [krigingRhs, hlen]
    rw [if_pos hin, if_pos h1, hget i hin]
  · rw [show extendPerm samples.length σ i = i from if_neg hin]
    simp [krigingRhs, hlen, hin]

theorem perm_mem_subset (samples samples' : List Sample) (σ : ℕ → ℕ)
    (hlen : samples'.length = samples.length)
    (hσlt : ∀ i, i < samples.length → σ i < samples.length)
    (hget : ∀ i, i < samples.length → sampleGet samples' i = sampleGet samples (σ i)) :
    ∀ s ∈ samples', s ∈ samples := by
  intro s hs
  obtain ⟨i, hi, rfl⟩ := (mem_iff_sampleGet samples' s).1 hs
  rw [hget i (by omega)]
  exact sampleGet_mem samples (σ i) (hσlt i (by omega))

theorem perm_mem_superset (samples samples' : List Sample) (σ : ℕ → ℕ)
    (hlen : samples'.length = samples.length)
    (hσlt : ∀ i, i < samples.length → σ i < samples.length)
    (hσinj : ∀ i j, i < samples.length → j < samples.length → σ i = σ j → i = j)
    (hget : ∀ i, i < samples.length → sampleGet samples' i = sampleGet samples (σ i)) :
    ∀ s ∈ samples, s ∈ samples' := by
  intro s hs
  obtain ⟨i₀, hi₀, rfl⟩ := (mem_iff_sampleGet samples s).1 hs
  obtain ⟨j, hj, hje⟩ := Finset.surj_on_of_inj_on_of_card_le (fun a _ => σ a)
    (fun a ha => Finset.mem_range.2 (hσlt a (Finset.mem_range.1 ha)))
    (fun a₁ a₂ h₁ h₂ he =>
      hσinj a₁ a₂ (Finset.mem_range.1 h₁) (Finset.mem_range.1 h₂) he)
    le_rfl i₀ (Finset.mem_range.2 hi₀)
  have hjlt : j < samples.length := Finset.mem_range.1 hj
  rw [hje, ← hget j hjlt]
  exact sampleGet_mem samples' j (by omega)

theorem eq_of_pairwise_loc (x y : ℝ) (samples : List Sample)
    (hdist : samples.Pairwise (fun a b => ¬(a.x = b.x ∧ a.y = b.y)))
    (s t : Sample) (hs : s ∈ samples) (ht : t ∈ samples)
    (hsx : s.x = x) (hsy : s.y = y) (htx : t.x = x) (hty : t.y = y) : t = s := by
  by_contra hne
  have hsym : Symmetric (fun a b : Sample => ¬(a.x = b.x ∧ a.y = b.y)) := by
    intro a b hab hba
    exact hab ⟨hba.1.symm, hba.2.symm⟩
  exact List.Pairwise.forall hsym hdist ht hs hne
    ⟨by rw [htx, hsx], by rw [hty, hsy]⟩

/-- On success under both sample orders, the solved predictions agree: each
weight vector is the unique solution of its (mutually permuted) system. -/
theorem prediction_perm (samples samples' : List Sample) (x y : ℝ)
    (params : VariogramParams) (σ : ℕ → ℕ) (w w' : ℕ → ℝ)
    (hlen : samples'.length = samples.length)
    (hσlt : ∀ i, i < samples.length → σ i < samples.length)
    (hσinj : ∀ i j, i < samples.length → j < samples.length → σ i = σ j → i = j)
    (hget : ∀ i, i < samples.length → sampleGet samples' i = sampleGet samples (σ i))
    (hw : gaussianElimination (samples.length + 1) (krigingMatrix samples params)
      (krigingRhs x y samples params) = some w)
    (hw' : gaussianElimination (samples'.length + 1) (krigingMatrix samples' params)
      (krigingRhs x y samples' params) = some w') :
    ∑ i in Finset.range samples.length, w i * (sampleGet samples i).z =
      ∑ i in Finset.range samples'.length, w' i * (sampleGet samples' i).z := by
  set n := samples.length with hn
  have hτlt := extendPerm_lt n σ hσlt
  have hτinj := extendPerm_inj n σ hσlt hσinj
  obtain ⟨hwsol, _⟩ := gaussianElimination_spec (n + 1) _ _ w hw
  obtain ⟨_, huniq'⟩ := gaussianElimination_spec (samples'.length + 1) _ _ w' hw'
  have htrans : SolvesSystem (samples'.length + 1) (krigingMatrix samples' params)
      (krigingRhs x y samples' params) (fun t => w (extendPerm n σ t)) := by
    intro i hi
    rw [hlen] at hi
    have hM := kriging_matrix_transport samples samples' params σ hlen hσlt hσinj hget
    have hb := kriging_rhs_transport x y samples samples' params σ hlen hσlt hget
    rw [hb i, hlen]
    have hstep1 : ∑ j in Finset.range (n + 1),
        krigingMatrix samples' params i j * w (extendPerm n σ j) =
        ∑ j in Finset.range (n + 1),
          krigingMatrix samples params (extendPerm n σ i) (extendPerm n σ j) *
            w (extendPerm n σ j) := by
      refine Finset.sum_congr rfl ?_
      intro j _
      rw [hM i j]
    rw [hstep1]
    have hstep2 : ∑ j in Finset.range (n + 1),
        krigingMatrix samples params (extendPerm n σ i) (extendPerm n σ j) *
          w (extendPerm n σ j) =
        ∑ j in Finset.range (n + 1),
          krigingMatrix samples params (extendPerm n σ i) j * w j :=
      sum_range_reindex (n + 1) (extendPerm n σ) hτlt hτinj
        (fun j => krigingMatrix samples params (extendPerm n σ i) j * w j)
    rw [hstep2]
    exact hwsol (extendPerm n σ i) (hτlt i hi)
  have hagree : ∀ t, t < samples'.length + 1 → w (extendPerm n σ t) = w' t :=
    fun t ht => huniq' (fun t => w (extendPerm n σ t)) htrans t ht
  have hstep3 : ∑ i in Finset.range samples'.length, w' i * (sampleGet samples' i).z =
      ∑ i in Finset.range n, w (σ i) * (sampleGet samples (σ i)).z := by
    rw [hlen]
    refine Finset.sum_congr rfl ?_
    intro i hi
    have hilt : i < n := Finset.mem_range.1 hi
    rw [← hagree i (by omega), hget i hilt,
      show extendPerm n σ i = σ i from if_pos hilt]
  rw [hstep3]
  exact (sum_range_reindex n σ hσlt hσinj (fun i => w i * (sampleGet samples i).z)).symm

theorem krigePoint_no_match_some (x y : ℝ) (samples : List Sample)
    (params : VariogramParams) (w : ℕ → ℝ) (hn : samples.length ≠ 0)
    (hfind : samples.find? (fun s => s.x = x ∧ s.y = y) = none)
    (hGE : gaussianElimination (samples.length + 1) (krigingMatrix samples params)
      (krigingRhs x y samples params) = some w) :
    krigePoint x y samples params =
      (List.range samples.length).foldl
        (fun acc i => acc + w i * (sampleGet samples i).z) 0 := by
  rw [krigePoint, if_neg hn, hfind, hGE]

theorem krigePoint_no_match_none (x y : ℝ) (samples : List Sample)
    (params : VariogramParams) (hn : samples.length ≠ 0)
    (hfind : samples.find? (fun s => s.x = x ∧ s.y = y) = none)
    (hGE : gaussianElimination (samples.length + 1) (krigingMatrix samples params)
      (krigingRhs x y samples params) = none) :
    krigePoint x y samples params = inverseDistanceWeighting x y samples := by
  rw [krigePoint, if_neg hn, hfind, hGE]

/-- C5 (amended): sample order cannot change the prediction outside the
degenerate situations exhibited by the counterexample. For any relabeling σ
of the samples: (1) with pairwise-distinct locations, an exact-match query is
order-independent; (2) when the query matches no sample and the elimination
succeeds under both orders, the solved predictions agree; (3) when it is
singular under both orders and no sample is within 0.001 of the query, the
IDW fallback agrees. -/
theorem C5_amended_order_independence (samples samples' : List Sample)
    (x y : ℝ) (params : VariogramParams) (σ : ℕ → ℕ)
    (hlen : samples'.length = samples.length)
    (hσlt : ∀ i, i < samples.length → σ i < samples.length)
    (hσinj : ∀ i j, i < samples.length → j < samples.length → σ i = σ j → i = j)
    (hget : ∀ i, i < samples.length → sampleGet samples' i = sampleGet samples (σ i)) :
    (samples.Pairwise (fun a b => ¬(a.x = b.x ∧ a.y = b.y)) →
      (∃ s ∈ samples, s.x = x ∧ s.y = y) →
      krigePoint x y samples params = krigePoint x y samples' params) ∧
    (samples.find? (fun s => s.x = x ∧ s.y = y) = none →
      ∀ w w', gaussianElimination (samples.length + 1) (krigingMatrix samples params)
          (krigingRhs x y samples params) = some w →
        gaussianElimination (samples'.length + 1) (krigingMatrix samples' params)
          (krigingRhs x y samples' params) = some w' →
        krigePoint x y samples params = krigePoint x y samples' params) ∧
    (samples.find? (fun s => s.x = x ∧ s.y = y) = none →
      gaussianElimination (samples.length + 1) (krigingMatrix samples params)
          (krigingRhs x y samples params) = none →
      gaussianElimination (samples'.length + 1) (krigingMatrix samples' params)
          (krigingRhs x y samples' params) = none →
      (∀ s ∈ samples, ¬ pointDistance x y s < 0.001) →
      krigePoint x y samples params = krigePoint x y samples' params) := by
  refine ⟨?_, ?_, ?_⟩
  · rintro hdist ⟨s, hsmem, hsx, hsy⟩
    have h1 : krigePoint x y samples params = s.z :=
      (krigePoint_exact x y samples params s hsmem hsx hsy).2 hdist
    have hsmem' : s ∈ samples' :=
      perm_mem_superset samples samples' σ hlen hσlt hσinj hget s hsmem
    obtain ⟨t', ht'mem, ht'x, ht'y, ht'eval⟩ :=
      (krigePoint_exact x y samples' params s hsmem' hsx hsy).1
    have ht'samples : t' ∈ samples :=
      perm_mem_subset samples samples' σ hlen hσlt hget t' ht'mem
    have : t' = s :=
      eq_of_pairwise_loc x y samples hdist s t' hsmem ht'samples hsx hsy ht'x ht'y
    rw [h1, ht'eval, this]
  · intro hfind w w' hw hw'
    by_cases hn : samples.length = 0
    · rw [List.length_eq_zero.1 hn,
        List.length_eq_zero.1 (show samples'.length = 0 by omega)]
    · have hn' : samples'.length ≠ 0 := by omega
      have hfind' : samples'.find? (fun s => s.x = x ∧ s.y = y) = none := by
        rw [List.find?_eq_none] at hfind ⊢
        intro s hs
        exact hfind s (perm_mem_subset samples samples' σ hlen hσlt hget s hs)
      rw [krigePoint_no_match_some x y samples params w hn hfind hw,
        krigePoint_no_match_some x y samples' params w' hn' hfind' hw',
        prediction_foldl_eq, prediction_foldl_eq]
      exact prediction_perm samples samples' x y params σ w w'
        hlen hσlt hσinj hget hw hw'
  · intro hfind hGE hGE' hfar
    by_cases hn : samples.length = 0
    · rw [List.length_eq_zero.1 hn,
        List.length_eq_zero.1 (show samples'.length = 0 by omega)]
    · have hn' : samples'.length ≠ 0 := by omega
      have hfind' : samples'.find? (fun s => s.x = x ∧ s.y = y) = none := by
        rw [List.find?_eq_none] at hfind ⊢
        intro s hs
        exact hfind s (perm_mem_subset samples samples' σ hlen hσlt hget s hs)
      rw [krigePoint_no_match_none x y samples params hn hfind hGE,
        krigePoint_no_match_none x y samples' params hn' hfind' hGE']
      exact idw_perm_invariant x y samples samples' σ hlen hσlt hσinj hget hfar

/-- C5 counterexample: two samples at the same location with different values.
The lists are permutations of one another, yet `krigePoint` at that location
returns whichever matching sample comes first: `1` on one order, `2` on the
other. -/
theorem C5_counterexample_order_dependent :
    List.Perm [(⟨0, 0, 1⟩ : Sample), ⟨0, 0, 2⟩] [⟨0, 0, 2⟩, ⟨0, 0, 1⟩] ∧
    krigePoint 0 0 [⟨0, 0, 1⟩, ⟨0, 0, 2⟩] (VariogramParams.mk 0 1 10) = 1 ∧
    krigePoint 0 0 [⟨0, 0, 2⟩, ⟨0, 0, 1⟩] (VariogramParams.mk 0 1 10) = 2 ∧
    (1 : ℝ) ≠ 2 := by
  refine ⟨List.Perm.swap _ _ _, ?_, ?_, by norm_num⟩
  · exact krigePoint_find_eq 0 0 _ _ ⟨0, 0, 1⟩ (by simp [List.find?])
  · exact krigePoint_find_eq 0 0 _ _ ⟨0, 0, 2⟩ (by simp [List.find?])

/-- C5 witness. -/
theorem C5_amended_order_independence_witness :
    krigePoint 0 0 [⟨0, 0, 1⟩, ⟨2, 0, 5⟩] (VariogramParams.mk 0 1 10) =
      krigePoint 0 0 [⟨2, 0, 5⟩, ⟨0, 0, 1⟩] (VariogramParams.mk 0 1 10) :=
  (C5_amended_order_independence [⟨0, 0, 1⟩, ⟨2, 0, 5⟩] [⟨2, 0, 5⟩, ⟨0, 0, 1⟩] 0 0
      (VariogramParams.mk 0 1 10) (fun k => if k = 0 then 1 else if k = 1 then 0 else k)
      rfl
      (by
        intro i hi
        have hi2 : i < 2 := by simpa using hi
        interval_cases i <;> simp)
      (by
        intro i j hi hj h
        have hi2 : i < 2 := by simpa using hi
        have hj2 : j < 2 := by simpa using hj
        interval_cases i <;> interval_cases j <;> simp_all)
      (by
        intro i hi
        have hi2 : i < 2 := by simpa using hi
        interval_cases i <;> rfl)).1
    (by norm_num [List.pairwise_cons])
    ⟨⟨0, 0, 1⟩, by simp, rfl, rfl⟩
